import Mathlib

/-!
Verification of the core text-processing, routing and retrieval-cascade logic
of the Baraka support-bot (`app.py`).

Python strings are modelled as `List Char`.  Pure fragments of the source are
translated directly; loops that consume their input (the regex scan of
`protect_placeholders`, `str.replace`, whitespace collapsing, decimal digit
rendering) are encoded by structural recursion on a fuel argument that is
initialised with a bound that provably suffices, so that every definition
evaluates by kernel reduction.  External collaborators (the OpenAI client,
`json.loads`, sklearn's fitted TF-IDF transform + cosine similarity, the
SQLite persistence layer and the parquet base dataset) are parameters of the
embedded functions, exactly at their call boundaries.
-/

set_option maxRecDepth 10000

namespace Baraka

abbrev Str := List Char

/-- Shorthand turning a Lean string literal into the `List Char` model. -/
def str (s : String) : Str := s.data

/-- ASCII model of Python's `\s` class / `str.strip` whitespace. -/
def isPySpace (c : Char) : Bool :=
  c = ' ' || c = '\t' || c = '\n' || c = '\r' || c = '\x0b' || c = '\x0c'

/-- Python `str.lower()` (ASCII range; the keyword tables are ASCII). -/
def pyLower (s : Str) : Str := s.map Char.toLower

/-- Python `str.strip()`. -/
def pyStrip (s : Str) : Str :=
  ((s.dropWhile isPySpace).reverse.dropWhile isPySpace).reverse

/-- Python truthiness of a string: non-empty. -/
def pyTruthy (s : Str) : Prop := s ≠ []

instance (s : Str) : Decidable (pyTruthy s) := by unfold pyTruthy; infer_instance

/-- Python `needle in hay` substring test. -/
def pyIn (needle hay : Str) : Prop := needle <:+: hay

instance (n h : Str) : Decidable (pyIn n h) := by unfold pyIn; infer_instance

/-- Fuel-driven loop of `re.sub(r"\s+", " ", text)`: each maximal run of
whitespace becomes a single space. -/
def collapseGo : Nat → Str → Str
  | 0, s => s
  | _ + 1, [] => []
  | fuel + 1, c :: rest =>
    if isPySpace c then ' ' :: collapseGo fuel (rest.dropWhile isPySpace)
    else c :: collapseGo fuel rest

/-- `re.sub(r"\s+", " ", text)`  (app.py line 897). -/
def collapseWS (s : Str) : Str := collapseGo s.length s

/-- `normalize` (app.py lines 895-898): lower, strip, collapse whitespace. -/
def normalize (text : Str) : Str := collapseWS (pyStrip (pyLower text))

/-!  ## Placeholder guard (app.py lines 506-520)

`_PLACEHOLDER_RE = re.compile r"(\{\{[^{}]*\}\}|\{[^{}]*\}|<[^<>]*>)"`.
`matchToken s` decides whether one of the three alternatives matches at the
start of `s` (in the regex's alternation order, which for these shapes never
needs backtracking: the starred classes exclude their closing delimiters), and
returns the matched token together with the remaining input.  -/

def notBrace (c : Char) : Bool := !(c = '{' || c = '}')

def notAngle (c : Char) : Bool := !(c = '<' || c = '>')

def matchToken : Str → Option (Str × Str)
  | '{' :: '{' :: rest =>
    (match rest.dropWhile notBrace with
     | '}' :: '}' :: r3 =>
       some ('{' :: '{' :: (rest.takeWhile notBrace ++ ['}', '}']), r3)
     | _ => none)
  | '{' :: rest =>
    (match rest.dropWhile notBrace with
     | '}' :: r2 => some ('{' :: (rest.takeWhile notBrace ++ ['}']), r2)
     | _ => none)
  | '<' :: rest =>
    (match rest.dropWhile notAngle with
     | '>' :: r2 => some ('<' :: (rest.takeWhile notAngle ++ ['>']), r2)
     | _ => none)
  | _ => none

/-- Decimal digit character, as Python's `str(int)` renders it. -/
def digChar (d : Nat) : Char := Char.ofNat (48 + d)

/-- Fuel-driven decimal rendering of a natural number (big-endian). -/
def natDigitsGo : Nat → Nat → Str
  | 0, _ => []
  | fuel + 1, n =>
    if n < 10 then [digChar n]
    else natDigitsGo fuel (n / 10) ++ [digChar (n % 10)]

/-- Decimal rendering of `n`, as in Python's f-string `f"@@PH{n}@@"`. -/
def natDigits (n : Nat) : Str := natDigitsGo (n + 1) n

/-- The marker generated for the `n`-th placeholder: `@@PH{n}@@`. -/
def keyOf (n : Nat) : Str := '@' :: '@' :: 'P' :: 'H' :: (natDigits n ++ ['@', '@'])

/-- Fuel-driven left-to-right scan of `_PLACEHOLDER_RE.sub(repl, text)`
(app.py lines 508-514): each match, in order of appearance, is replaced by a
fresh marker `@@PH{len(mapping)}@@`, and `mapping` records marker ↦ original
(insertion order, as a Python dict). -/
def protectGo : Nat → Str → Nat → Str × List (Str × Str)
  | 0, s, _ => (s, [])
  | _ + 1, [], _ => ([], [])
  | fuel + 1, c :: rest, n =>
    match matchToken (c :: rest) with
    | some (tok, after) =>
      let p := protectGo fuel after (n + 1)
      (keyOf n ++ p.1, (keyOf n, tok) :: p.2)
    | none =>
      let p := protectGo fuel rest n
      (c :: p.1, p.2)

/-- `protect_placeholders` (app.py lines 508-514). -/
def protect_placeholders (text : Str) : Str × List (Str × Str) :=
  protectGo text.length text 0

/-- Fuel-driven `str.replace(old, new)` loop: leftmost occurrence first,
non-overlapping, the replacement text is not rescanned. -/
def pyReplaceGo (pat rep : Str) : Nat → Str → Str
  | 0, s => s
  | _ + 1, [] => []
  | fuel + 1, c :: rest =>
    if pat ≠ [] ∧ pat <+: (c :: rest) then
      rep ++ pyReplaceGo pat rep fuel ((c :: rest).drop pat.length)
    else c :: pyReplaceGo pat rep fuel rest

/-- Python `s.replace(pat, rep)` (replace all occurrences). -/
def pyReplace (pat rep s : Str) : Str := pyReplaceGo pat rep s.length s

/-- Stable insertion of `x` in front of the first element for which `ge x y`
fails; `sortByGe` is then a stable sort, as CPython's `sorted` is. -/
def insertByGe (ge : α → α → Bool) (x : α) : List α → List α
  | [] => [x]
  | y :: ys => if ge x y then x :: y :: ys else y :: insertByGe ge x ys

def sortByGe (ge : α → α → Bool) (l : List α) : List α :=
  l.foldr (insertByGe ge) []

/-- `sorted(mapping.keys(), key=len, reverse=True)` over (key, value) pairs:
stable, descending key length. -/
def sortByKeyLenDesc (m : List (Str × Str)) : List (Str × Str) :=
  sortByGe (fun a b => b.1.length ≤ a.1.length) m

/-- `restore_placeholders` (app.py lines 516-520): replace the marker keys,
longest keys first, each by Python `str.replace`. -/
def restore_placeholders (text : Str) (mapping : List (Str × Str)) : Str :=
  (sortByKeyLenDesc mapping).foldl (fun out kv => pyReplace kv.1 kv.2 out) text

/-!  ## Equation lemmas: the fuel arguments are irrelevant once sufficient -/

theorem pyReplaceGo_irrel (pat rep : Str) :
    ∀ f g s, s.length ≤ f → s.length ≤ g →
      pyReplaceGo pat rep f s = pyReplaceGo pat rep g s := by
  intro f
  induction f with
  | zero =>
    intro g s hf _
    have : s = [] := List.eq_nil_of_length_eq_zero (Nat.le_zero.mp hf)
    subst this
    cases g <;> rfl
  | succ f ih =>
    intro g s hf hg
    match s with
    | [] => cases g <;> rfl
    | c :: rest =>
      have hg1 : 0 < g := lt_of_lt_of_le (by simp) hg
      obtain ⟨g', rfl⟩ : ∃ g', g = g' + 1 := ⟨g - 1, by omega⟩
      show pyReplaceGo pat rep (f + 1) (c :: rest)
          = pyReplaceGo pat rep (g' + 1) (c :: rest)
      unfold pyReplaceGo
      by_cases hc : pat ≠ [] ∧ pat <+: (c :: rest)
      · simp only [if_pos hc]
        have hp1 : 1 ≤ pat.length := by
          rcases hc with ⟨hne, -⟩
          cases pat with
          | nil => exact absurd rfl hne
          | cons _ _ => simp
        have hd : ((c :: rest).drop pat.length).length ≤ rest.length := by
          simp only [List.length_drop, List.length_cons]
          omega
        have hfl : rest.length ≤ f := Nat.le_of_succ_le_succ hf
        have hgl : rest.length ≤ g' := Nat.le_of_succ_le_succ hg
        rw [ih g' _ (le_trans hd hfl) (le_trans hd hgl)]
      · simp only [if_neg hc]
        rw [ih g' rest (Nat.le_of_succ_le_succ hf) (Nat.le_of_succ_le_succ hg)]

theorem pyReplaceGo_eq (pat rep : Str) (fuel : Nat) (s : Str) (h : s.length ≤ fuel) :
    pyReplaceGo pat rep fuel s = pyReplace pat rep s :=
  pyReplaceGo_irrel pat rep fuel s.length s h le_rfl

theorem pyReplace_nil (pat rep : Str) : pyReplace pat rep [] = [] := rfl

theorem pyReplace_cons (pat rep : Str) (c : Char) (rest : Str) :
    pyReplace pat rep (c :: rest) =
      if pat ≠ [] ∧ pat <+: (c :: rest) then
        rep ++ pyReplace pat rep ((c :: rest).drop pat.length)
      else c :: pyReplace pat rep rest := by
  show pyReplaceGo pat rep (rest.length + 1) (c :: rest) = _
  unfold pyReplaceGo
  by_cases hc : pat ≠ [] ∧ pat <+: (c :: rest)
  · simp only [if_pos hc]
    have hp1 : 1 ≤ pat.length := by
      rcases hc with ⟨hne, -⟩
      cases pat with
      | nil => exact absurd rfl hne
      | cons _ _ => simp
    have hd : ((c :: rest).drop pat.length).length ≤ rest.length := by
      simp only [List.length_drop, List.length_cons]
      omega
    rw [pyReplaceGo_eq pat rep _ _ hd]
  · simp only [if_neg hc]
    rw [pyReplaceGo_eq pat rep _ _ le_rfl]

/-!  ## Behaviour of `pyReplace` -/

theorem pyReplace_no_occ {pat : Str} (rep : Str) :
    ∀ s, ¬ pat <:+: s → pyReplace pat rep s = s := by
  intro s
  induction s with
  | nil => intro _; rfl
  | cons c rest ih =>
    intro h
    rw [pyReplace_cons]
    have hnp : ¬ (pat ≠ [] ∧ pat <+: (c :: rest)) := by
      rintro ⟨-, hp⟩
      exact h hp.isInfix
    rw [if_neg hnp, ih fun hi => h (List.infix_cons hi)]

theorem pyReplace_head_match {pat : Str} (hne : pat ≠ []) (rep s : Str) :
    pyReplace pat rep (pat ++ s) = rep ++ pyReplace pat rep s := by
  match pat, hne with
  | p :: pat', _ =>
    show pyReplace (p :: pat') rep (p :: (pat' ++ s)) = _
    rw [pyReplace_cons]
    have hpre : (p :: pat') ≠ [] ∧ (p :: pat') <+: (p :: (pat' ++ s)) := by
      exact ⟨by simp, List.prefix_append _ _⟩
    rw [if_pos hpre]
    congr 1
    have : (p :: (pat' ++ s)) = (p :: pat') ++ s := rfl
    rw [this, List.drop_left]

theorem pyReplace_append_skip {pat : Str} (rep : Str) :
    ∀ a b, (∀ t, t ≠ [] → t <:+ a → ¬ pat <+: (t ++ b)) →
      pyReplace pat rep (a ++ b) = a ++ pyReplace pat rep b := by
  intro a
  induction a with
  | nil => intro b _; rfl
  | cons c a' ih =>
    intro b h
    show pyReplace pat rep (c :: (a' ++ b)) = _
    rw [pyReplace_cons]
    have hnp : ¬ (pat ≠ [] ∧ pat <+: (c :: (a' ++ b))) := by
      rintro ⟨-, hp⟩
      exact h (c :: a') (by simp) (List.suffix_refl _) hp
    rw [if_neg hnp,
      ih b fun t ht hsuf => h t ht (hsuf.trans (List.suffix_cons c a'))]
    rfl

/-!  ## Decimal digits -/

theorem natDigitsGo_irrel : ∀ f g n, n < f → n < g → natDigitsGo f n = natDigitsGo g n := by
  intro f
  induction f with
  | zero => intro g n hf _; omega
  | succ f ih =>
    intro g n hf hg
    obtain ⟨g', rfl⟩ : ∃ g', g = g' + 1 := ⟨g - 1, by omega⟩
    show natDigitsGo (f + 1) n = natDigitsGo (g' + 1) n
    unfold natDigitsGo
    by_cases hn : n < 10
    · simp only [if_pos hn]
    · simp only [if_neg hn]
      have h10 : 10 ≤ n := Nat.le_of_not_lt hn
      have hlt : n / 10 < n := Nat.div_lt_self (by omega) (by omega)
      rw [ih g' (n / 10) (by omega) (by omega)]

theorem natDigits_small {n : Nat} (h : n < 10) : natDigits n = [digChar n] := by
  unfold natDigits natDigitsGo
  simp [h]

theorem natDigits_big {n : Nat} (h : 10 ≤ n) :
    natDigits n = natDigits (n / 10) ++ [digChar (n % 10)] := by
  show natDigitsGo (n + 1) n = _
  unfold natDigitsGo
  simp only [if_neg (Nat.not_lt.mpr h)]
  have hlt : n / 10 < n := Nat.div_lt_self (by omega) (by omega)
  rw [natDigitsGo_irrel n (n / 10 + 1) (n / 10) (by omega) (by omega)]
  rfl

theorem natDigits_ne_nil (n : Nat) : natDigits n ≠ [] := by
  by_cases h : n < 10
  · rw [natDigits_small h]; simp
  · rw [natDigits_big (Nat.le_of_not_lt h)]; simp

theorem digChar_isDigit : ∀ d < 10, (digChar d).isDigit = true := by decide

theorem digChar_inj : ∀ d < 10, ∀ e < 10, digChar d = digChar e → d = e := by decide

theorem natDigits_isDigit : ∀ n, ∀ c ∈ natDigits n, c.isDigit = true := by
  intro n
  induction n using Nat.strong_induction_on with
  | _ n ih =>
    intro c hc
    by_cases h : n < 10
    · rw [natDigits_small h] at hc
      simp only [List.mem_singleton] at hc
      subst hc
      exact digChar_isDigit n h
    · rw [natDigits_big (Nat.le_of_not_lt h)] at hc
      rcases List.mem_append.mp hc with h1 | h2
      · exact ih (n / 10) (Nat.div_lt_self (by omega) (by omega)) c h1
      · simp only [List.mem_singleton] at h2
        subst h2
        exact digChar_isDigit _ (Nat.mod_lt _ (by omega))

theorem isDigit_ne_at {c : Char} (h : c.isDigit = true) : c ≠ '@' := by
  rintro rfl; simp [Char.isDigit] at h

theorem natDigits_inj : ∀ m n, natDigits m = natDigits n → m = n := by
  intro m
  induction m using Nat.strong_induction_on with
  | _ m ih =>
    intro n h
    by_cases hm : m < 10 <;> by_cases hn : n < 10
    · rw [natDigits_small hm, natDigits_small hn] at h
      simp only [List.cons.injEq, and_true] at h
      exact digChar_inj m hm n hn h
    · exfalso
      rw [natDigits_small hm, natDigits_big (Nat.le_of_not_lt hn)] at h
      have hlen := congrArg List.length h
      have h1 : 0 < (natDigits (n / 10)).length :=
        List.length_pos.mpr (natDigits_ne_nil _)
      simp only [List.length_singleton, List.length_append] at hlen
      omega
    · exfalso
      rw [natDigits_big (Nat.le_of_not_lt hm), natDigits_small hn] at h
      have hlen := congrArg List.length h
      have h1 : 0 < (natDigits (m / 10)).length :=
        List.length_pos.mpr (natDigits_ne_nil _)
      simp only [List.length_singleton, List.length_append] at hlen
      omega
    · rw [natDigits_big (Nat.le_of_not_lt hm), natDigits_big (Nat.le_of_not_lt hn)] at h
      obtain ⟨h1, h2⟩ := List.append_inj' h (by simp)
      have hd : m / 10 = n / 10 :=
        ih (m / 10) (Nat.div_lt_self (by omega) (by omega)) (n / 10) h1
      have hmod : m % 10 = n % 10 := by
        have := List.cons.injEq (digChar (m % 10)) [] (digChar (n % 10)) [] ▸ h2
        simp only [List.cons.injEq, and_true] at h2
        exact digChar_inj _ (Nat.mod_lt _ (by omega)) _ (Nat.mod_lt _ (by omega)) h2
      omega

theorem keyOf_inj {m n : Nat} (h : keyOf m = keyOf n) : m = n := by
  unfold keyOf at h
  simp only [List.cons.injEq, true_and] at h
  obtain ⟨h1, -⟩ := List.append_inj' h (by simp)
  exact natDigits_inj m n h1

/-- Helper: lists of non-`'@'` characters terminated by `'@'` are
prefix-rigid. -/
theorem noAt_prefix_eq :
    ∀ xs ys r1 r2 : Str, (∀ c ∈ xs, c ≠ '@') → (∀ c ∈ ys, c ≠ '@') →
      (xs ++ '@' :: r1) <+: (ys ++ '@' :: r2) → xs = ys := by
  intro xs
  induction xs with
  | nil =>
    intro ys r1 r2 _ hys h
    cases ys with
    | nil => rfl
    | cons y ys' =>
      exfalso
      simp only [List.nil_append, List.cons_append, List.cons_prefix_cons] at h
      exact hys y (by simp) h.1.symm
  | cons x xs' ih =>
    intro ys r1 r2 hxs hys h
    cases ys with
    | nil =>
      exfalso
      simp only [List.cons_append, List.nil_append, List.cons_prefix_cons] at h
      exact hxs x (by simp) h.1
    | cons y ys' =>
      simp only [List.cons_append, List.cons_prefix_cons] at h
      have := ih ys' r1 r2 (fun c hc => hxs c (by simp [hc]))
        (fun c hc => hys c (by simp [hc])) h.2
      rw [h.1, this]

/-- The central rigidity fact: a marker can only be a prefix of text that
starts with the same marker. -/
theorem keyOf_prefix_key {i j : Nat} {u : Str} (h : keyOf i <+: keyOf j ++ u) :
    i = j := by
  unfold keyOf at h
  simp only [List.cons_append, List.cons_prefix_cons, true_and] at h
  have h' : (natDigits i ++ '@' :: ['@']) <+: (natDigits j ++ '@' :: ('@' :: u)) := by
    simpa using h
  exact natDigits_inj i j
    (noAt_prefix_eq _ _ _ _
      (fun c hc => isDigit_ne_at (natDigits_isDigit i c hc))
      (fun c hc => isDigit_ne_at (natDigits_isDigit j c hc)) h')

/-!  ## Specification of the token matcher -/

theorem matchToken_spec :
    ∀ s tok rest, matchToken s = some (tok, rest) →
      s = tok ++ rest ∧ tok ≠ [] ∧
      (tok.head? = some '{' ∨ tok.head? = some '<') ∧
      (tok.getLast? = some '}' ∨ tok.getLast? = some '>') := by
  intro s tok rest h
  unfold matchToken at h
  split at h
  · rename_i rest2
    split at h
    · rename_i r3 heq
      simp only [Option.some.injEq, Prod.mk.injEq] at h
      obtain ⟨htok, hrest⟩ := h
      subst htok; subst hrest
      have hwd := List.takeWhile_append_dropWhile notBrace rest2
      rw [heq] at hwd
      refine ⟨?_, by simp, by simp, ?_⟩
      · simp only [List.cons_append, List.append_assoc, List.cons.injEq, true_and]
        simpa using hwd.symm
      · left
        have hsh : ('{' :: '{' :: (rest2.takeWhile notBrace ++ ['}', '}']))
            = ('{' :: '{' :: rest2.takeWhile notBrace ++ ['}']) ++ ['}'] := by simp
        rw [hsh, List.getLast?_concat]
    · exact absurd h (by simp)
  · rename_i rest2 hne
    split at h
    · rename_i r2 heq
      simp only [Option.some.injEq, Prod.mk.injEq] at h
      obtain ⟨htok, hrest⟩ := h
      subst htok; subst hrest
      have hwd := List.takeWhile_append_dropWhile notBrace rest2
      rw [heq] at hwd
      refine ⟨?_, by simp, by simp, ?_⟩
      · simp only [List.cons_append, List.append_assoc, List.cons.injEq, true_and]
        simpa using hwd.symm
      · left
        have hsh : ('{' :: (rest2.takeWhile notBrace ++ ['}']))
            = ('{' :: rest2.takeWhile notBrace) ++ ['}'] := by simp
        rw [hsh, List.getLast?_concat]
    · exact absurd h (by simp)
  · rename_i rest2
    split at h
    · rename_i r2 heq
      simp only [Option.some.injEq, Prod.mk.injEq] at h
      obtain ⟨htok, hrest⟩ := h
      subst htok; subst hrest
      have hwd := List.takeWhile_append_dropWhile notAngle rest2
      rw [heq] at hwd
      refine ⟨?_, by simp, by simp, ?_⟩
      · simp only [List.cons_append, List.append_assoc, List.cons.injEq, true_and]
        simpa using hwd.symm
      · right
        have hsh : ('<' :: (rest2.takeWhile notAngle ++ ['>']))
            = ('<' :: rest2.takeWhile notAngle) ++ ['>'] := by simp
        rw [hsh, List.getLast?_concat]
    · exact absurd h (by simp)
  · exact absurd h (by simp)

theorem matchToken_consumes {s tok rest : Str} (h : matchToken s = some (tok, rest)) :
    rest.length < s.length := by
  obtain ⟨happ, hne, -, -⟩ := matchToken_spec s tok rest h
  rw [happ, List.length_append]
  have : 0 < tok.length := List.length_pos.mpr hne
  omega

/-!  ## Equation lemmas for the protect scan -/

theorem protectGo_irrel :
    ∀ f g s n, s.length ≤ f → s.length ≤ g → protectGo f s n = protectGo g s n := by
  intro f
  induction f with
  | zero =>
    intro g s n hf _
    have : s = [] := List.eq_nil_of_length_eq_zero (Nat.le_zero.mp hf)
    subst this
    cases g <;> rfl
  | succ f ih =>
    intro g s n hf hg
    match s with
    | [] => cases g <;> rfl
    | c :: rest =>
      obtain ⟨g', rfl⟩ : ∃ g', g = g' + 1 := ⟨g - 1, by simp at hg; omega⟩
      show protectGo (f + 1) (c :: rest) n = protectGo (g' + 1) (c :: rest) n
      unfold protectGo
      cases hm : matchToken (c :: rest) with
      | some p =>
        obtain ⟨tok, after⟩ := p
        have hlt : after.length < rest.length + 1 := matchToken_consumes hm
        simp only
        rw [ih g' after (n + 1) (by simp at hf; omega) (by simp at hg; omega)]
      | none =>
        simp only
        rw [ih g' rest n (by simp at hf; omega) (by simp at hg; omega)]

theorem protectAux_nil (n : Nat) : protectGo 0 [] n = ([], []) := rfl

theorem protect_eq_go (s : Str) (f : Nat) (h : s.length ≤ f) (n : Nat) :
    protectGo f s n = protectGo s.length s n :=
  protectGo_irrel f s.length s n h le_rfl

theorem protectGo_succ (f : Nat) (c : Char) (rest : Str) (n : Nat) :
    protectGo (f + 1) (c :: rest) n =
      match matchToken (c :: rest) with
      | some (tok, after) =>
        (keyOf n ++ (protectGo f after (n + 1)).1,
         (keyOf n, tok) :: (protectGo f after (n + 1)).2)
      | none =>
        ((c :: (protectGo f rest n).1), (protectGo f rest n).2) := rfl

theorem protectGo_cons_match {c : Char} {rest tok after : Str} (n : Nat)
    (hm : matchToken (c :: rest) = some (tok, after)) :
    protectGo (c :: rest).length (c :: rest) n =
      (keyOf n ++ (protectGo after.length after (n + 1)).1,
       (keyOf n, tok) :: (protectGo after.length after (n + 1)).2) := by
  have hlt : after.length < rest.length + 1 := matchToken_consumes hm
  show protectGo (rest.length + 1) (c :: rest) n = _
  rw [protectGo_succ, hm]
  dsimp only
  rw [protect_eq_go after rest.length (by omega) (n + 1)]

theorem protectGo_cons_none {c : Char} {rest : Str} (n : Nat)
    (hm : matchToken (c :: rest) = none) :
    protectGo (c :: rest).length (c :: rest) n =
      ((c :: (protectGo rest.length rest n).1), (protectGo rest.length rest n).2) := by
  show protectGo (rest.length + 1) (c :: rest) n = _
  rw [protectGo_succ, hm]

/-!  ## Decomposition of guarded text

`RT` describes the output of the protect scan: alternating gaps (unmatched
input text) and marker slots carrying their original token.  `renderRT` is the
guarded string, `origRT` the input it came from, `entriesRT` the mapping. -/

inductive RT where
  | nil (g : Str)
  | slot (g : Str) (i : Nat) (v : Str) (rest : RT)

def renderRT : RT → Str
  | .nil g => g
  | .slot g i _ r => g ++ (keyOf i ++ renderRT r)

def origRT : RT → Str
  | .nil g => g
  | .slot g _ v r => g ++ (v ++ origRT r)

def entriesRT : RT → List (Str × Str)
  | .nil _ => []
  | .slot _ i v r => (keyOf i, v) :: entriesRT r

def consGapRT (c : Char) : RT → RT
  | .nil g => .nil (c :: g)
  | .slot g i v r => .slot (c :: g) i v r

def leadGapRT : RT → Str
  | .nil g => g
  | .slot g _ _ _ => g

def graftRT (g v : Str) : RT → RT
  | .nil g2 => .nil (g ++ v ++ g2)
  | .slot g2 j w r => .slot (g ++ v ++ g2) j w r

def resolveRT (i : Nat) (v : Str) : RT → RT
  | .nil g => .nil g
  | .slot g j w r => if j = i then graftRT g v r else .slot g j w (resolveRT i v r)

/-- No occurrence of the marker core `PH` anywhere in the string. -/
def PHFree (s : Str) : Prop := ¬ (['P', 'H'] <:+: s)

instance (s : Str) : Decidable (PHFree s) := by unfold PHFree; infer_instance

/-- Shape facts about stored token values, straight from the regex: tokens are
PH-free pieces of the input, open with a brace/angle and close with one. -/
def ValOK (v : Str) : Prop :=
  PHFree v ∧ (v.head? = some '{' ∨ v.head? = some '<') ∧
    (v.getLast? = some '}' ∨ v.getLast? = some '>')

/-- Invariant: gaps and values are PH-free, values are token-shaped and slot
indices are at least `lo` and strictly increase. -/
def InvRT : Nat → RT → Prop
  | _, .nil g => PHFree g
  | lo, .slot g i v r => PHFree g ∧ lo ≤ i ∧ ValOK v ∧ InvRT (i + 1) r

/-- The stored value at slot `i` is `v`. -/
def SlotAt (i : Nat) (v : Str) : RT → Prop
  | .nil _ => False
  | .slot _ j w r => (j = i ∧ w = v) ∨ SlotAt i v r

theorem renderRT_consGap (c : Char) (t : RT) :
    renderRT (consGapRT c t) = c :: renderRT t := by
  cases t <;> simp [consGapRT, renderRT]

theorem origRT_consGap (c : Char) (t : RT) :
    origRT (consGapRT c t) = c :: origRT t := by
  cases t <;> simp [consGapRT, origRT]

theorem entriesRT_consGap (c : Char) (t : RT) :
    entriesRT (consGapRT c t) = entriesRT t := by
  cases t <;> simp [consGapRT, entriesRT]

theorem leadGapRT_prefix_orig (t : RT) : leadGapRT t <+: origRT t := by
  cases t with
  | nil g => exact List.prefix_refl _
  | slot g i v r => exact List.prefix_append _ _

theorem renderRT_graft (g v : Str) (r : RT) :
    renderRT (graftRT g v r) = g ++ (v ++ renderRT r) := by
  cases r <;> simp [graftRT, renderRT]

theorem origRT_graft (g v : Str) (r : RT) :
    origRT (graftRT g v r) = g ++ (v ++ origRT r) := by
  cases r <;> simp [graftRT, origRT]

theorem entriesRT_graft (g v : Str) (r : RT) :
    entriesRT (graftRT g v r) = entriesRT r := by
  cases r <;> simp [graftRT, entriesRT]

/-!  ## PH-freeness -/

theorem PHFree_nil : PHFree [] := by decide

theorem PHFree_sub {s x : Str} (hs : PHFree s) (h : x <:+: s) : PHFree x :=
  fun hx => hs (hx.trans h)

theorem ph_of_append {a b : Str} (h : ['P', 'H'] <:+: (a ++ b)) :
    ['P', 'H'] <:+: a ∨ ['P', 'H'] <:+: b ∨
      (a.getLast? = some 'P' ∧ b.head? = some 'H') := by
  induction a with
  | nil => right; left; simpa using h
  | cons c a' ih =>
    rw [List.cons_append, List.infix_cons_iff] at h
    rcases h with hpre | hinf
    · cases a' with
      | nil =>
        simp only [List.nil_append] at hpre
        rw [List.cons_prefix_cons] at hpre
        obtain ⟨rfl, h2⟩ := hpre
        cases b with
        | nil => simp at h2
        | cons d b' =>
          rw [List.cons_prefix_cons] at h2
          right; right
          exact ⟨rfl, by rw [← h2.1]; rfl⟩
      | cons d a'' =>
        rw [List.cons_append, List.cons_prefix_cons] at hpre
        obtain ⟨rfl, h2⟩ := hpre
        rw [List.cons_prefix_cons] at h2
        left
        exact ⟨[], a'', by rw [h2.1]; rfl⟩
    · rcases ih hinf with h1 | h2 | h3
      · exact Or.inl (List.infix_cons h1)
      · exact Or.inr (Or.inl h2)
      · rcases h3 with ⟨hl, hh⟩
        cases a' with
        | nil => simp at hl
        | cons d a'' =>
          right; right
          exact ⟨by rw [List.getLast?_cons_cons]; exact hl, hh⟩

theorem PHFree_append_val {a v b : Str} (ha : PHFree a) (hv : ValOK v)
    (hb : PHFree b) : PHFree (a ++ v ++ b) := by
  obtain ⟨hvf, hvh, hvl⟩ := hv
  intro h
  rw [List.append_assoc] at h
  rcases ph_of_append h with h1 | h2 | h3
  · exact ha h1
  · rcases ph_of_append h2 with h4 | h5 | h6
    · exact hvf h4
    · exact hb h5
    · rcases h6 with ⟨hl, -⟩
      rcases hvl with hv1 | hv1 <;> rw [hv1] at hl <;> exact absurd hl (by decide)
  · rcases h3 with ⟨-, hh⟩
    have hvne : v ≠ [] := by
      rcases hvh with hv1 | hv1 <;> intro hne <;> subst hne <;> simp at hv1
    rw [List.head?_append] at hh
    rcases hvh with hv1 | hv1 <;> rw [hv1] at hh <;> simp [Option.or] at hh

theorem InvRT_mono {lo lo' : Nat} {t : RT} (h : InvRT lo' t) (hle : lo ≤ lo') :
    InvRT lo t := by
  cases t with
  | nil g => exact h
  | slot g i v r =>
    obtain ⟨hg, hi, hv, hr⟩ := h
    exact ⟨hg, le_trans hle hi, hv, hr⟩

theorem InvRT_graft {lo i : Nat} {g v : Str} {r : RT} (hlo : lo ≤ i + 1)
    (hg : PHFree g) (hv : ValOK v) (hr : InvRT (i + 1) r) :
    InvRT lo (graftRT g v r) := by
  cases r with
  | nil g2 => exact PHFree_append_val hg hv hr
  | slot g2 j w r' =>
    obtain ⟨hg2, hj, hw, hr'⟩ := hr
    exact ⟨PHFree_append_val hg hv hg2, le_trans hlo hj, hw, hr'⟩

theorem resolveRT_id {lo i : Nat} {v : Str} {t : RT} (h : InvRT lo t)
    (hi : i < lo) : resolveRT i v t = t := by
  induction t generalizing lo with
  | nil g => rfl
  | slot g j w r ih =>
    obtain ⟨-, hj, -, hr⟩ := h
    unfold resolveRT
    rw [if_neg (by omega), ih hr (by omega)]

theorem SlotAt_lower {lo i : Nat} {v : Str} {t : RT} (h : SlotAt i v t)
    (hinv : InvRT lo t) : lo ≤ i := by
  induction t generalizing lo with
  | nil g => exact absurd h (by simp [SlotAt])
  | slot g j w r ih =>
    obtain ⟨-, hj, -, hr⟩ := hinv
    rcases h with ⟨rfl, -⟩ | hrec
    · exact hj
    · exact le_trans (le_trans hj (Nat.le_succ j)) (ih hrec hr)

theorem SlotAt_val {lo i : Nat} {v : Str} {t : RT} (h : SlotAt i v t)
    (hinv : InvRT lo t) : ValOK v := by
  induction t generalizing lo with
  | nil g => exact absurd h (by simp [SlotAt])
  | slot g j w r ih =>
    obtain ⟨-, -, hw, hr⟩ := hinv
    rcases h with ⟨-, rfl⟩ | hrec
    · exact hw
    · exact ih hrec hr

theorem mem_entries_slotAt {k v : Str} {t : RT} (h : (k, v) ∈ entriesRT t) :
    ∃ i, k = keyOf i ∧ SlotAt i v t := by
  induction t with
  | nil g => simp [entriesRT] at h
  | slot g j w r ih =>
    rcases List.mem_cons.mp h with heq | hm
    · obtain ⟨h1, h2⟩ := Prod.mk.injEq .. ▸ heq
      exact ⟨j, h1, Or.inl ⟨rfl, h2.symm⟩⟩
    · obtain ⟨i, hk, hs⟩ := ih hm
      exact ⟨i, hk, Or.inr hs⟩

theorem erase_inst_eq (l : List (Str × Str)) (a : Str × Str) :
    @List.erase _ instBEqOfDecidableEq l a = l.erase a := by
  induction l with
  | nil => rfl
  | cons b l ih =>
    rw [@List.erase_cons _ instBEqOfDecidableEq a b l, List.erase_cons]
    by_cases hb : b = a
    · subst hb
      rw [if_pos (by simp [instBEqOfDecidableEq]), if_pos (by simp)]
    · rw [if_neg (by simp [instBEqOfDecidableEq, hb]),
        if_neg (by simp [hb]), ih]

theorem resolveRT_entries {lo i : Nat} {v : Str} {t : RT} (h : SlotAt i v t)
    (hinv : InvRT lo t) :
    entriesRT (resolveRT i v t) = (entriesRT t).erase (keyOf i, v) := by
  induction t generalizing lo with
  | nil g => exact absurd h (by simp [SlotAt])
  | slot g j w r ih =>
    obtain ⟨-, hj, -, hr⟩ := hinv
    unfold resolveRT
    by_cases hji : j = i
    · subst hji
      have hw : w = v := by
        rcases h with ⟨-, rfl⟩ | hrec
        · rfl
        · exact absurd (SlotAt_lower hrec hr) (by omega)
      subst hw
      rw [if_pos rfl, entriesRT_graft]
      show entriesRT r = ((keyOf j, w) :: entriesRT r).erase (keyOf j, w)
      rw [List.erase_cons_head]
    · have hrec : SlotAt i v r := by
        rcases h with ⟨hji', -⟩ | hrec
        · exact absurd hji' hji
        · exact hrec
      rw [if_neg hji]
      show (keyOf j, w) :: entriesRT (resolveRT i v r)
          = ((keyOf j, w) :: entriesRT r).erase (keyOf i, v)
      rw [List.erase_cons_tail (by
        simp only [beq_iff_eq, Prod.mk.injEq, not_and]
        intro hk
        exact absurd (keyOf_inj hk) hji), ih hrec hr]

theorem resolveRT_orig {lo i : Nat} {v : Str} {t : RT} (h : SlotAt i v t)
    (hinv : InvRT lo t) : origRT (resolveRT i v t) = origRT t := by
  induction t generalizing lo with
  | nil g => exact absurd h (by simp [SlotAt])
  | slot g j w r ih =>
    obtain ⟨-, hj, -, hr⟩ := hinv
    unfold resolveRT
    by_cases hji : j = i
    · subst hji
      have hw : w = v := by
        rcases h with ⟨-, rfl⟩ | hrec
        · rfl
        · exact absurd (SlotAt_lower hrec hr) (by omega)
      subst hw
      rw [if_pos rfl, origRT_graft]
      rfl
    · have hrec : SlotAt i v r := by
        rcases h with ⟨hji', -⟩ | hrec
        · exact absurd hji' hji
        · exact hrec
      rw [if_neg hji]
      show g ++ (w ++ origRT (resolveRT i v r)) = g ++ (w ++ origRT r)
      rw [ih hrec hr]

theorem resolveRT_inv {lo i : Nat} {v : Str} {t : RT} (hv : ValOK v)
    (hinv : InvRT lo t) : InvRT lo (resolveRT i v t) := by
  induction t generalizing lo with
  | nil g => exact hinv
  | slot g j w r ih =>
    obtain ⟨hg, hj, hw, hr⟩ := hinv
    unfold resolveRT
    by_cases hji : j = i
    · rw [if_pos hji]
      exact InvRT_graft (by omega) hg hv hr
    · rw [if_neg hji]
      exact ⟨hg, hj, hw, ih hr⟩

theorem entriesRT_eq_nil {t : RT} (h : entriesRT t = []) : ∃ g, t = .nil g := by
  cases t with
  | nil g => exact ⟨g, rfl⟩
  | slot g j w r => simp [entriesRT] at h

/-!  ## Where can a marker occur inside guarded text? -/

/-- Guarded text (and anything rendered from an `RT` under the invariant)
never starts with the marker interior `PH` or `@PH`. -/
def HeadOK (u : Str) : Prop := ¬ (['P', 'H'] <+: u) ∧ ¬ (['@', 'P', 'H'] <+: u)

theorem renderRT_headOK {lo : Nat} {t : RT} (h : InvRT lo t) :
    HeadOK (renderRT t) := by
  cases t with
  | nil g =>
    exact ⟨fun hp => h hp.isInfix,
      fun hp => h ((show (['P', 'H'] : Str) <:+: ['@', 'P', 'H'] by decide).trans
        hp.isInfix)⟩
  | slot g i v r =>
    obtain ⟨hg, -, -, -⟩ := h
    show HeadOK (g ++ (keyOf i ++ renderRT r))
    match g with
    | [] =>
      constructor
      · intro hp
        rw [List.nil_append] at hp
        unfold keyOf at hp
        rw [List.cons_append, List.cons_prefix_cons] at hp
        exact absurd hp.1 (by decide)
      · intro hp
        rw [List.nil_append] at hp
        unfold keyOf at hp
        simp only [List.cons_append, List.cons_prefix_cons] at hp
        exact absurd hp.2.1 (by decide)
    | [c] =>
      constructor
      · intro hp
        rw [List.singleton_append, List.cons_prefix_cons] at hp
        obtain ⟨-, hp2⟩ := hp
        unfold keyOf at hp2
        rw [List.cons_append, List.cons_prefix_cons] at hp2
        exact absurd hp2.1 (by decide)
      · intro hp
        rw [List.singleton_append, List.cons_prefix_cons] at hp
        obtain ⟨-, hp2⟩ := hp
        unfold keyOf at hp2
        simp only [List.cons_append, List.cons_prefix_cons] at hp2
        exact absurd hp2.2.1 (by decide)
    | c1 :: c2 :: g' =>
      constructor
      · intro hp
        simp only [List.cons_append, List.cons_prefix_cons] at hp
        obtain ⟨rfl, rfl, -⟩ := hp
        exact hg ⟨[], g', rfl⟩
      · intro hp
        simp only [List.cons_append, List.cons_prefix_cons] at hp
        obtain ⟨rfl, rfl, hp3⟩ := hp
        match g' with
        | [] =>
          rw [List.nil_append] at hp3
          unfold keyOf at hp3
          rw [List.cons_append, List.cons_prefix_cons] at hp3
          exact absurd hp3.1 (by decide)
        | c3 :: g'' =>
          rw [List.cons_append, List.cons_prefix_cons] at hp3
          obtain ⟨rfl, -⟩ := hp3
          exact hg ⟨['@'], g'', rfl⟩

theorem suffix_append_cases {t x y : Str} (h : t <:+ x ++ y) :
    t <:+ y ∨ ∃ t', t = t' ++ y ∧ t' <:+ x := by
  obtain ⟨u, hu⟩ := h
  rcases List.append_eq_append_iff.mp hu with ⟨w, hx, ht⟩ | ⟨w, hux, hyw⟩
  · exact Or.inr ⟨w, ht, ⟨u, hx.symm⟩⟩
  · exact Or.inl ⟨w, hyw.symm⟩

theorem suffix_pair {a b : Char} {t : Str} (h : t <:+ [a, b]) :
    t = [] ∨ t = [b] ∨ t = [a, b] := by
  have hm := (List.mem_tails _ _).mpr h
  simp only [List.tails] at hm
  simp only [List.mem_cons, List.mem_singleton, List.not_mem_nil] at hm
  tauto

theorem suffix_quad {a b c d : Char} {t : Str} (h : t <:+ [a, b, c, d]) :
    t = [] ∨ t = [d] ∨ t = [c, d] ∨ t = [b, c, d] ∨ t = [a, b, c, d] := by
  have hm := (List.mem_tails _ _).mpr h
  simp only [List.tails] at hm
  simp only [List.mem_cons, List.mem_singleton, List.not_mem_nil] at hm
  tauto

/-- No occurrence of `keyOf i` can start strictly inside a PH-free gap that is
followed by a marker. -/
theorem gap_skip {g bs : Str} {i : Nat} (hg : PHFree g) :
    ∀ t, t ≠ [] → t <:+ g → ¬ keyOf i <+: (t ++ ('@' :: '@' :: bs)) := by
  intro t hne hsuf hp
  match t with
  | [c] =>
    unfold keyOf at hp
    rw [List.singleton_append, List.cons_prefix_cons] at hp
    obtain ⟨-, hp2⟩ := hp
    rw [List.cons_prefix_cons] at hp2
    obtain ⟨h1, hp3⟩ := hp2
    rw [List.cons_prefix_cons] at hp3
    exact absurd hp3.1 (by decide)
  | [c1, c2] =>
    unfold keyOf at hp
    simp only [List.cons_append, List.nil_append, List.cons_prefix_cons] at hp
    exact absurd hp.2.2.1 (by decide)
  | [c1, c2, c3] =>
    unfold keyOf at hp
    simp only [List.cons_append, List.nil_append, List.cons_prefix_cons] at hp
    exact absurd hp.2.2.2.1 (by decide)
  | c1 :: c2 :: c3 :: c4 :: t' =>
    unfold keyOf at hp
    simp only [List.cons_append, List.cons_prefix_cons] at hp
    obtain ⟨rfl, rfl, rfl, rfl, -⟩ := hp
    exact hg (((show (['P', 'H'] : Str) <:+: '@' :: '@' :: 'P' :: 'H' :: t' from
      ⟨['@', '@'], t', rfl⟩)).trans hsuf.isInfix)

/-- No occurrence of `keyOf i` (with `i ≠ j`) can start inside the marker
`keyOf j` when the following text satisfies `HeadOK`. -/
theorem key_skip {i j : Nat} {u : Str} (hij : i ≠ j) (hu : HeadOK u) :
    ∀ t, t ≠ [] → t <:+ keyOf j → ¬ keyOf i <+: (t ++ u) := by
  intro t hne hsuf hp
  have hkey : keyOf j = ('@' :: '@' :: 'P' :: 'H' :: natDigits j) ++ ['@', '@'] := by
    simp [keyOf]
  rw [hkey] at hsuf
  rcases suffix_append_cases hsuf with hA | ⟨t', rfl, hB⟩
  · rcases suffix_pair hA with rfl | rfl | rfl
    · exact hne rfl
    · unfold keyOf at hp
      rw [List.singleton_append, List.cons_prefix_cons] at hp
      obtain ⟨-, hp2⟩ := hp
      exact hu.2 ((show (['@', 'P', 'H'] : Str) <+: '@' :: 'P' :: 'H' ::
        (natDigits i ++ ['@', '@']) by
          simp [List.cons_prefix_cons]).trans hp2)
    · unfold keyOf at hp
      simp only [List.cons_append, List.nil_append, List.cons_prefix_cons] at hp
      obtain ⟨-, -, hp2⟩ := hp
      exact hu.1 ((show (['P', 'H'] : Str) <+: 'P' :: 'H' ::
        (natDigits i ++ ['@', '@']) by
          simp [List.cons_prefix_cons]).trans hp2)
  · have hX : ('@' :: '@' :: 'P' :: 'H' :: natDigits j)
        = (['@', '@', 'P', 'H'] : Str) ++ natDigits j := by simp
    rw [hX] at hB
    rcases suffix_append_cases hB with hB1 | ⟨t'', rfl, hB2⟩
    · match t', hB1 with
      | [], _ =>
        unfold keyOf at hp
        simp only [List.nil_append, List.cons_append, List.cons_prefix_cons,
          true_and] at hp
        exact hu.1 ((show (['P', 'H'] : Str) <+: 'P' :: 'H' ::
          (natDigits i ++ ['@', '@']) by
            simp [List.cons_prefix_cons]).trans hp)
      | d :: t2', hB1 =>
        have hd : d ∈ natDigits j := hB1.subset (by simp)
        have hdig := natDigits_isDigit j d hd
        unfold keyOf at hp
        rw [show ((d :: t2') ++ ['@', '@']) ++ u
            = d :: ((t2' ++ ['@', '@']) ++ u) by simp] at hp
        rw [List.cons_prefix_cons] at hp
        exact isDigit_ne_at hdig hp.1.symm
    · rcases suffix_quad hB2 with rfl | rfl | rfl | rfl | rfl
      · match hD : natDigits j, (natDigits_ne_nil j) with
        | d :: D', _ =>
          have hd : d ∈ natDigits j := by rw [hD]; simp
          have hdig := natDigits_isDigit j d hd
          rw [List.nil_append, hD] at hp
          unfold keyOf at hp
          simp only [List.cons_append, List.cons_prefix_cons] at hp
          exact isDigit_ne_at hdig hp.1.symm
      · unfold keyOf at hp
        simp only [List.cons_append, List.singleton_append,
          List.cons_prefix_cons] at hp
        exact absurd hp.1 (by decide)
      · unfold keyOf at hp
        simp only [List.cons_append, List.cons_prefix_cons] at hp
        exact absurd hp.1 (by decide)
      · unfold keyOf at hp
        simp only [List.cons_append, List.cons_prefix_cons] at hp
        exact absurd hp.2.1 (by decide)
      · have : keyOf i <+: keyOf j ++ u := by
          rw [hkey]
          simpa [List.append_assoc] using hp
        exact hij (keyOf_prefix_key this)

theorem resolveRT_slot (g : Str) (j : Nat) (w v : Str) (i : Nat) (r : RT) :
    resolveRT i v (.slot g j w r)
      = if j = i then graftRT g v r else .slot g j w (resolveRT i v r) := rfl

/-- Replacing marker `i` in rendered guarded text resolves exactly slot `i`
(and nothing else). -/
theorem replace_render {i : Nat} {v : Str} :
    ∀ {t : RT} {lo : Nat}, InvRT lo t →
      pyReplace (keyOf i) v (renderRT t) = renderRT (resolveRT i v t) := by
  intro t
  induction t with
  | nil g =>
    intro lo hinv
    show pyReplace (keyOf i) v g = g
    refine pyReplace_no_occ v g ?_
    intro hocc
    exact hinv ((show (['P', 'H'] : Str) <:+: keyOf i from
      ⟨['@', '@'], natDigits i ++ ['@', '@'], by simp [keyOf]⟩).trans hocc)
  | slot g j w r ih =>
    intro lo hinv
    obtain ⟨hg, hj, hw, hr⟩ := hinv
    show pyReplace (keyOf i) v (g ++ (keyOf j ++ renderRT r)) = _
    have hb : keyOf j ++ renderRT r
        = '@' :: '@' :: ('P' :: 'H' :: (natDigits j ++ ['@', '@']) ++ renderRT r) := by
      simp [keyOf]
    rw [pyReplace_append_skip v g (keyOf j ++ renderRT r) (by
      intro t' ht hs
      rw [hb]
      exact gap_skip hg t' ht hs)]
    by_cases hji : j = i
    · subst hji
      rw [pyReplace_head_match (by simp [keyOf]) v (renderRT r), ih hr,
        resolveRT_id hr (by omega)]
      show g ++ (v ++ renderRT r) = renderRT (resolveRT j v (.slot g j w r))
      rw [resolveRT_slot, if_pos rfl, renderRT_graft]
    · rw [pyReplace_append_skip v (keyOf j) (renderRT r)
        (key_skip (fun hi => hji hi.symm) (renderRT_headOK hr)), ih hr]
      show g ++ (keyOf j ++ renderRT (resolveRT i v r))
          = renderRT (resolveRT i v (.slot g j w r))
      rw [resolveRT_slot, if_neg hji]
      rfl

/-!  ## The protect scan produces a well-formed decomposition -/

theorem protect_decomp_len :
    ∀ len, ∀ s : Str, s.length ≤ len → ∀ n, ∃ t : RT,
      protectGo s.length s n = (renderRT t, entriesRT t) ∧ origRT t = s ∧
      (PHFree s → InvRT n t) := by
  intro len
  induction len with
  | zero =>
    intro s hs n
    have : s = [] := List.eq_nil_of_length_eq_zero (Nat.le_zero.mp hs)
    subst this
    exact ⟨.nil [], rfl, rfl, fun _ => PHFree_nil⟩
  | succ len ih =>
    intro s hs n
    match s with
    | [] => exact ⟨.nil [], rfl, rfl, fun _ => PHFree_nil⟩
    | c :: rest =>
      cases hm : matchToken (c :: rest) with
      | some p =>
        obtain ⟨tok, after⟩ := p
        obtain ⟨happ, htne, hhead, hlast⟩ := matchToken_spec _ _ _ hm
        have hcons : after.length < (c :: rest).length := matchToken_consumes hm
        have hafter : after.length ≤ len := by
          simp only [List.length_cons] at hcons hs
          omega
        obtain ⟨t', h1, h2, h3⟩ := ih after hafter (n + 1)
        refine ⟨.slot [] n tok t', ?_, ?_, ?_⟩
        · rw [protectGo_cons_match n hm, h1]
          rfl
        · show [] ++ (tok ++ origRT t') = c :: rest
          rw [h2, List.nil_append, ← happ]
        · intro hfree
          have htokfree : PHFree tok :=
            PHFree_sub hfree (happ ▸ (List.prefix_append tok after).isInfix)
          have haftfree : PHFree after :=
            PHFree_sub hfree (happ ▸ (List.suffix_append tok after).isInfix)
          exact ⟨PHFree_nil, le_refl n, ⟨htokfree, hhead, hlast⟩, h3 haftfree⟩
      | none =>
        have hlen' : rest.length ≤ len := by
          simp only [List.length_cons] at hs
          omega
        obtain ⟨t', h1, h2, h3⟩ := ih rest hlen' n
        refine ⟨consGapRT c t', ?_, ?_, ?_⟩
        · rw [protectGo_cons_none n hm, h1, renderRT_consGap, entriesRT_consGap]
        · rw [origRT_consGap, h2]
        · intro hfree
          have hrestfree : PHFree rest :=
            PHFree_sub hfree ⟨[c], [], by simp⟩
          have hlead : PHFree (c :: leadGapRT t') := by
            refine PHFree_sub hfree ?_
            have hpre : leadGapRT t' <+: rest := h2 ▸ leadGapRT_prefix_orig t'
            obtain ⟨w, hw⟩ := hpre
            exact ⟨[], w, by simp [← hw]⟩
          have hinv' := h3 hrestfree
          cases t' with
          | nil g => exact hlead
          | slot g j w r =>
            obtain ⟨-, hj, hv, hr⟩ := hinv'
            exact ⟨hlead, hj, hv, hr⟩

/-!  ## The restore fold -/

theorem insertByGe_perm (ge : α → α → Bool) (x : α) :
    ∀ l : List α, (insertByGe ge x l).Perm (x :: l) := by
  intro l
  induction l with
  | nil => exact List.Perm.refl _
  | cons y ys ih =>
    unfold insertByGe
    by_cases hc : ge x y
    · rw [if_pos hc]
    · rw [if_neg hc]
      exact ((ih.cons y).trans (List.Perm.swap x y ys))

theorem sortByGe_perm (ge : α → α → Bool) :
    ∀ l : List α, (sortByGe ge l).Perm l := by
  intro l
  induction l with
  | nil => exact List.Perm.refl _
  | cons y ys ih =>
    exact (insertByGe_perm ge y (sortByGe ge ys)).trans (ih.cons y)

/-- Folding the replacements over any permutation of the mapping entries
reconstructs the original text. -/
theorem restore_fold :
    ∀ (l : List (Str × Str)) (t : RT) (lo : Nat), InvRT lo t →
      l.Perm (entriesRT t) →
      l.foldl (fun out kv => pyReplace kv.1 kv.2 out) (renderRT t) = origRT t := by
  intro l
  induction l with
  | nil =>
    intro t lo hinv hperm
    have hent : entriesRT t = [] := hperm.symm.eq_nil
    obtain ⟨g, rfl⟩ := entriesRT_eq_nil hent
    rfl
  | cons kv l' ih =>
    intro t lo hinv hperm
    obtain ⟨k, v⟩ := kv
    have hmem : (k, v) ∈ entriesRT t :=
      (List.cons_perm_iff_perm_erase.mp hperm).1
    obtain ⟨i, rfl, hslot⟩ := mem_entries_slotAt hmem
    have hperm' : l'.Perm ((entriesRT t).erase (keyOf i, v)) := by
      have hp := (List.cons_perm_iff_perm_erase.mp hperm).2
      rwa [erase_inst_eq] at hp
    show List.foldl _ (pyReplace (keyOf i) v (renderRT t)) l' = _
    rw [replace_render hinv]
    have hres := ih (resolveRT i v t) lo
      (resolveRT_inv (SlotAt_val hslot hinv) hinv)
      (by rw [resolveRT_entries hslot hinv]; exact hperm')
    rw [hres, resolveRT_orig hslot hinv]

/-- Round trip of the placeholder guard, for marker-collision-free text. -/
theorem protect_restore_of_PHFree (text : Str) (h : PHFree text) :
    restore_placeholders (protect_placeholders text).1
      (protect_placeholders text).2 = text := by
  obtain ⟨t, h1, h2, h3⟩ := protect_decomp_len text.length text le_rfl 0
  show restore_placeholders (protectGo text.length text 0).1
      (protectGo text.length text 0).2 = text
  rw [h1]
  unfold restore_placeholders
  rw [← h2]
  exact restore_fold _ t 0 (h3 h) (sortByGe_perm _ _)

/-- C2 counterexample: the claim as stated fails.  The input
`"@@PH0@@{a}"` contains one brace token `{a}`, yet the round trip returns
`"{a}{a}"`: the generated marker `@@PH0@@` collides with the identical
marker-shaped substring already present in the text, and `str.replace`
replaces both occurrences. -/
theorem claim_C2_counterexample :
    restore_placeholders
        (protect_placeholders (str "@@PH0@@{a}")).1
        (protect_placeholders (str "@@PH0@@{a}")).2
      ≠ str "@@PH0@@{a}" := by decide

/-- C2 (amended): for every input text that contains no occurrence of the
marker-interior character pair `PH` (in particular any text free of
marker-shaped substrings `@@PHn@@`) — or whose placeholder map is empty
(the k = 0 case, where `protect_placeholders` returns the text unchanged
with an empty map and `restore_placeholders` on an empty map is a no-op) —
`restore_placeholders` applied to the output of `protect_placeholders`
reproduces the original text exactly, for any number k ≥ 0 of
bracket/brace/angle placeholder tokens, including adjacent
overlapping-looking tokens. -/
theorem claim_C2 (text : Str)
    (h : PHFree text ∨ (protect_placeholders text).2 = []) :
    restore_placeholders (protect_placeholders text).1
      (protect_placeholders text).2 = text := by
  rcases h with h | h
  · exact protect_restore_of_PHFree text h
  · obtain ⟨t, h1, h2, -⟩ := protect_decomp_len text.length text le_rfl 0
    have hpr : protect_placeholders text = (renderRT t, entriesRT t) := h1
    have hent : entriesRT t = [] := by
      rw [hpr] at h
      exact h
    obtain ⟨g, rfl⟩ := entriesRT_eq_nil hent
    rw [hpr]
    exact h2

/-- Witness for C2 at a concrete input with adjacent tokens of all three
shapes. -/
theorem claim_C2_witness :
    (PHFree (str "pay {{amt}} to <b>{name}</b>{x}{y} now") ∨
      (protect_placeholders (str "pay {{amt}} to <b>{name}</b>{x}{y} now")).2 = []) ∧
    restore_placeholders
        (protect_placeholders (str "pay {{amt}} to <b>{name}</b>{x}{y} now")).1
        (protect_placeholders (str "pay {{amt}} to <b>{name}</b>{x}{y} now")).2
      = str "pay {{amt}} to <b>{name}</b>{x}{y} now" :=
  ⟨Or.inl (by decide), claim_C2 _ (Or.inl (by decide))⟩

/-!  ## External collaborators (app.py lines 490-500, §6 of the spec)

The OpenAI client, `json.loads`, the SQLite persistence layer, the parquet
base dataset, and sklearn's fitted TF-IDF transform + cosine similarity are
external to the core; they enter the embedding as parameters at exactly the
call boundaries the source uses. -/

inductive CallRes where
  | ok (out : Str)
  | exn

/-- One `client.responses.create` call: (system content, user content) ↦
output text (`resp.output_text or ""`) or a raised exception. -/
structure Client where
  respond : Str → Str → CallRes

/-- Result of `json.loads` restricted to the two fields the code reads;
`none` models a parse failure or a non-dict value (whose `.get` raises). -/
structure JDetect where
  lang : Option Str
  english : Option Str

/-- `LANG_NAME` (app.py lines 55-61). -/
def LANG_NAME : List (Str × Str) :=
  [(str "en", str "English"), (str "sw", str "Kiswahili"),
   (str "am", str "Amharic"), (str "so", str "Somali"),
   (str "ar", str "Arabic")]

/-!  ## Language layer (app.py lines 526-631) -/

def detect_sys : Str :=
  str "You are a language detector and translator.\nTask:\n1) Detect the language of the INPUT.\n2) Translate the INPUT to English.\n\nReturn ONLY valid JSON with keys: lang, english.\nlang must be one of: en, sw, am, so, ar.\nPreserve any placeholders exactly (tokens like @@PH0@@). Do NOT change them."

/-- `detect_and_translate_to_english` (app.py lines 526-569).  `client` is
`get_openai_client()` (`none` when no API key is configured or the import
fails); `jparse` is `json.loads`.  The Python `try`/`except` around the call
and the parse is modelled by the `exn`/`none` branches. -/
def detect_and_translate_to_english (client : Option Client)
    (jparse : Str → Option JDetect) (user_text : Str) : Str × Str :=
  match client with
  | none => (str "en", user_text)
  | some c =>
    let pm := protect_placeholders user_text
    let user := str "INPUT:\n" ++ pm.1
    match c.respond detect_sys user with
    | .exn => (str "en", user_text)
    | .ok out =>
      let raw := pyStrip out
      match jparse raw with
      | none => (str "en", user_text)
      | some data =>
        let lang0 := pyLower (pyStrip (data.lang.getD (str "en")))
        let eng := data.english.getD pm.1
        let lang := if lang0 = str "en" ∨ lang0 = str "sw" ∨ lang0 = str "am" ∨
            lang0 = str "so" ∨ lang0 = str "ar" then lang0 else str "en"
        (lang, restore_placeholders eng pm.2)

def translate_sys (target_lang : Str) : Str :=
  str "You are a professional translator.\nTranslate from English to " ++
    ((LANG_NAME.lookup target_lang).getD target_lang) ++
    str ".\nRules:\n- Output ONLY the translation, no explanations.\n- Preserve placeholders exactly (tokens like @@PH0@@). Do NOT change them.\n- Keep numbers, currency, and product names unchanged unless the target language normally uses a different script."

/-- `translate_from_english` (app.py lines 572-604). -/
def translate_from_english (client : Option Client) (text_en target_lang : Str) :
    Str :=
  if target_lang = str "en" then text_en
  else
    match client with
    | none => text_en
    | some c =>
      let pm := protect_placeholders text_en
      match c.respond (translate_sys target_lang) pm.1 with
      | .ok out => restore_placeholders (pyStrip out) pm.2
      | .exn => text_en

def ack_sw : Str := str "Sawa—nitajibu kwa Kiswahili kuanzia sasa."
def ack_am : Str := str "እሺ — ከአሁን በኋላ በአማርኛ እመልሳለሁ።"
def ack_so : Str := str "Haye—laga bilaabo hadda waxaan ku jawaabi doonaa Af-Soomaali."
def ack_ar : Str := str "حسنًا — سأجيب بالعربية من الآن فصاعدًا."
def ack_en : Str := str "Okay—I'll reply in English from now on."

/-- `handle_language_command` (app.py lines 607-631).  `(False, None, None)`
is modelled by `none` and `(True, msg, code)` by `some (msg, code)`. -/
def handle_language_command (user_text : Str) : Option (Str × Str) :=
  let t := pyLower (pyStrip user_text)
  if t = [] then none
  else if pyIn (str "kiswahili") t ∨ pyIn (str "swahili") t then
    some (ack_sw, str "sw")
  else if pyIn (str "amharic") t ∨ pyIn (str "አማርኛ") user_text then
    some (ack_am, str "am")
  else if pyIn (str "somali") t ∨ pyIn (str "soomaali") t then
    some (ack_so, str "so")
  else if pyIn (str "arabic") t ∨ pyIn (str "العربية") user_text ∨
      pyIn (str "عربي") user_text then
    some (ack_ar, str "ar")
  else if pyIn (str "english") t then some (ack_en, str "en")
  else none

/-!  ## Vector index builder (app.py lines 881-889) -/

/-- A Python value as it may appear in a `texts` list: a string or anything
else (`isinstance(t, str)` fails on the latter). -/
inductive PyVal where
  | s (v : Str)
  | other

/-- The feature parameters handed to `TfidfVectorizer`. -/
structure VecParams where
  ngramLo : Nat
  ngramHi : Nat
  minDf : Nat
  stopWords : Option Str
deriving DecidableEq

/-- `build_vector_index` (app.py lines 881-889): filter blanks/non-strings,
then choose the vectorizer parameters adaptively; the fitted matrix rows are
the filtered texts (the actual TF-IDF weights live in sklearn, outside the
core). -/
def build_vector_index (texts : List PyVal) : VecParams × List Str :=
  let ts := texts.filterMap fun t =>
    match t with
    | .s v => if pyStrip v ≠ [] then some v else none
    | .other => none
  if ts.length < 3 then (⟨1, 2, 1, none⟩, ts)
  else (⟨1, 2, 2, some (str "english")⟩, ts)

/-- The fitted corpus for a list that is already Python strings. -/
def fitCorpus (ts : List Str) : List Str := (build_vector_index (ts.map .s)).2

/-!  ## Department router (app.py lines 67-131, 895-928) -/

def DEPT_KEYWORDS : List (Str × List Str) :=
  [(str "ATM", [str "atm", str "cash withdrawal", str "swallowed",
      str "debit but no cash"]),
   (str "CARD", [str "card", str "visa", str "mastercard", str "debit card",
      str "credit card"]),
   (str "LOAN", [str "loan", str "mortgage", str "repayment", str "interest",
      str "borrow"]),
   (str "TRANSFER", [str "transfer", str "send money", str "reversal",
      str "pending", str "reverse transaction"]),
   (str "PASSWORD", [str "password", str "pin reset", str "forgot",
      str "login problem"]),
   (str "FEES", [str "fees", str "charges", str "annual fee", str "pricing"]),
   (str "FIND", [str "find atm", str "branch", str "nearest atm",
      str "locator"]),
   (str "CONTACT", [str "agent", str "customer care", str "call center",
      str "contact support"]),
   (str "ACCOUNT", [str "account", str "statement", str "transactions",
      str "close account", str "balance"])]

def DEPT_TRAIN : List (Str × List Str) :=
  [(str "ACCOUNT", [str "open account", str "create account",
      str "close account", str "account frozen", str "recent transactions",
      str "bank statement", str "account verification", str "kyc update",
      str "check balance", str "account balance"]),
   (str "ATM", [str "atm swallowed my card", str "no cash but debited",
      str "failed withdrawal", str "atm reversal", str "withdrawal dispute"]),
   (str "CARD", [str "activate card", str "block card", str "cancel card",
      str "card not working", str "international usage", str "annual fee",
      str "card balance"]),
   (str "CONTACT", [str "customer care", str "speak to agent",
      str "human agent", str "call center", str "contact support"]),
   (str "FEES", [str "charges too high", str "check fees",
      str "annual charges", str "fee dispute"]),
   (str "FIND", [str "find atm", str "nearest atm", str "find branch",
      str "branch near me"]),
   (str "LOAN", [str "apply for loan", str "loan repayment", str "mortgage",
      str "cancel loan", str "loan status", str "interest rate",
      str "borrow money"]),
   (str "PASSWORD", [str "reset password", str "forgot password",
      str "set up password", str "login problem"]),
   (str "TRANSFER", [str "cancel transfer", str "make transfer",
      str "wrong transfer", str "pending transfer", str "reverse transaction",
      str "send money"])]

/-- The flattened exemplar label list built by `build_dept_router`
(app.py lines 900-909). -/
def dept_labels : List Str :=
  (DEPT_TRAIN.map (fun p => p.2.map (fun _ => p.1))).flatten

/-- 0.40, 0.35, 0.25 as exact rationals (`mkRat` keeps every score
kernel-computable; the source's float literals denote these values). -/
def SIM_THRESHOLD_CUSTOM : ℚ := mkRat 2 5
def SIM_THRESHOLD_BASE : ℚ := mkRat 7 20
def SIM_THRESHOLD_ROUTE : ℚ := mkRat 1 4
def TOPK : Nat := 3

/-- numpy `argmax`: index of the first maximal element. -/
def argmaxGo : List ℚ → Nat → Nat → ℚ → Nat
  | [], _, bi, _ => bi
  | x :: xs, i, bi, bv =>
    if bv < x then argmaxGo xs (i + 1) i x else argmaxGo xs (i + 1) bi bv

def argmaxIdx : List ℚ → Nat
  | [] => 0
  | x :: xs => argmaxGo xs 1 0 x

def listMax : List ℚ → ℚ
  | [] => 0
  | x :: xs => xs.foldl max x

/-- The rule stage: first department (in `DEPT_KEYWORDS` iteration order)
with any keyword occurring as a substring. -/
def findRuleIn : List (Str × List Str) → Str → Option Str
  | [], _ => none
  | (d, kws) :: rest, t =>
    if kws.any (fun kw => decide (pyIn kw t)) then some d else findRuleIn rest t

/-- `route_department` (app.py lines 911-928).  `simR` is the vector stage's
collaborator: the cosine similarities of the normalized query against the
`build_dept_router` exemplar matrix (one entry per exemplar, in
`dept_labels` order). -/
def route_department (simR : Str → List ℚ) (text_en : Str) : Str × ℚ × Str :=
  let t := normalize text_en
  match findRuleIn DEPT_KEYWORDS t with
  | some dept => (dept, (1 : ℚ), str "rule")
  | none =>
    let sims := simR t
    let best_idx := argmaxIdx sims
    let best_dept := dept_labels.getD best_idx (str "")
    let best_score := sims.getD best_idx 0
    if best_score < SIM_THRESHOLD_ROUTE then
      (str "CONTACT", best_score, str "tfidf_lowconf")
    else (best_dept, best_score, str "tfidf")

/-!  ## Retrieval cascade (app.py lines 930-1021) -/

structure Faq where
  question : Str
  answer : Str
deriving DecidableEq

structure BaseRow where
  question : Str
  answer : Str
  category : Str
deriving DecidableEq

/-- The environment of external collaborators the cascade runs against. -/
structure Env where
  fetch_custom : Str → List Faq
  base_df : List BaseRow
  sim : List Str → Str → List ℚ
  pick : List ℚ → Nat
  client : Option Client

/-- What numpy's `argsort()[::-1][0]` guarantees inside `retrieve_best`: an
in-range index attaining the maximal similarity (the tie order among equal
scores is unspecified, since the sort is unstable). -/
def PickValid (pick : List ℚ → Nat) : Prop :=
  ∀ l : List ℚ, l ≠ [] → pick l < l.length ∧ l.getD (pick l) 0 = listMax l

/-- `answer_from_custom_first` (app.py lines 939-953). -/
def answer_from_custom_first (env : Env) (query_en dept : Str) :
    Option (Str × ℚ × Str) :=
  let custom_df := env.fetch_custom dept
  if custom_df.isEmpty then none
  else
    let questions := (custom_df.map Faq.question).filter
      fun q => !(pyStrip q).isEmpty
    if questions.isEmpty then none
    else
      let sims := env.sim (fitCorpus questions) (normalize query_en)
      let bi := env.pick sims
      let best := custom_df.getD bi ⟨[], []⟩
      let bestScore := sims.getD bi 0
      if SIM_THRESHOLD_CUSTOM ≤ bestScore then
        some (best.answer, bestScore, str "custom")
      else none

/-- `answer_from_base` (app.py lines 955-965). -/
def answer_from_base (env : Env) (query_en dept : Str)
    (base_df : List BaseRow) : Option (Str × ℚ × Str) :=
  let bd := base_df.filter fun r => r.category == dept
  let base_dept := if bd.isEmpty then base_df else bd
  let sims := env.sim (fitCorpus (base_dept.map BaseRow.question))
    (normalize query_en)
  let bi := env.pick sims
  let best := base_dept.getD bi ⟨[], [], []⟩
  let bestScore := sims.getD bi 0
  if SIM_THRESHOLD_BASE ≤ bestScore then some (best.answer, bestScore, str "base")
  else none

def canned_unconfident : Str :=
  str "I’m not fully confident yet. Please rephrase or add more detail."

def canned_unavailable : Str :=
  str "AI fallback is unavailable right now. I’ll answer using SACCO FAQs."

def fallback_sys (out_lang : Str) : Str :=
  str "Your name is Baraka. You are a helpful Kenyan retail-banking & SACCO support assistant. Answer ONLY using the provided context. If context is insufficient, ask a short follow-up question. Never request PINs or passwords. Reply in " ++
    ((LANG_NAME.lookup out_lang).getD (str "English")) ++ str "."

def joinSep (sep : Str) : List Str → Str
  | [] => []
  | [x] => x
  | x :: xs => x ++ sep ++ joinSep sep xs

def fallback_user (query_en : Str) (snips : List Str) : Str :=
  str "Customer question (English): " ++ query_en ++
    str "\n\nContext (FAQ snippets, English):\n" ++ joinSep (str "\n---\n") snips

/-- `openai_fallback` (app.py lines 967-996). -/
def openai_fallback (client : Option Client) (query_en : Str)
    (context_snippets : List Str) (out_lang : Str) : Str × ℚ × Str :=
  match client with
  | none => (canned_unconfident, 0, str "fallback")
  | some c =>
    match c.respond (fallback_sys out_lang)
        (fallback_user query_en context_snippets) with
    | .ok out => (pyStrip out, 0, str "openai")
    | .exn => (canned_unavailable, 0, str "fallback")

/-- The `argsort()[::-1][:topk]` index list (descending by similarity; the
order among ties is implementation-defined in numpy — one fixed choice is
modelled). -/
def topkIdx (sims : List ℚ) (k : Nat) : List Nat :=
  (sortByGe (fun i j => decide (sims.getD j 0 ≤ sims.getD i 0))
    (List.range sims.length)).take k

/-- The context snippets handed to the fallback tier
(app.py lines 1015-1017). -/
def fallbackSnippets (env : Env) (query_en : Str) : List Str :=
  let sims := env.sim (fitCorpus (env.base_df.map BaseRow.question))
    (normalize query_en)
  (topkIdx sims TOPK).map fun i =>
    let r := env.base_df.getD i ⟨[], [], []⟩
    str "Q: " ++ r.question ++ str "\nA: " ++ r.answer

/-- `generate_reply` (app.py lines 998-1021), returning
`(answer, source, score)`.  `log_chat` is a pure write to the persistence
collaborator and does not affect the returned value. -/
def generate_reply (env : Env) (query_en dept out_lang : Str) :
    Str × Str × ℚ :=
  match answer_from_custom_first env query_en dept with
  | some (ans_en, score, source) =>
    (translate_from_english env.client ans_en out_lang, source, score)
  | none =>
    match answer_from_base env query_en dept env.base_df with
    | some (ans_en, score, source) =>
      (translate_from_english env.client ans_en out_lang, source, score)
    | none =>
      let p := openai_fallback env.client query_en
        (fallbackSnippets env query_en) out_lang
      (p.1, p.2.2, p.2.1)

/-!  ## The chat turn (app.py lines 1215-1256)

Model of the message-handling block of `chat_page` for a submitted non-blank
message: a language command short-circuits the pipeline (the code appends the
acknowledgement and calls `st.rerun()` before the router or the cascade run). -/

inductive ChatOut where
  | langAck (msg : Str) (forced : Str)
  | keyWarning
  | answered (ans dept : Str) (dscore : ℚ) (dmethod source : Str) (score : ℚ)

def chat_turn (env : Env) (jparse : Str → Option JDetect)
    (simR : Str → List ℚ) (preferred : Option Str) (q : Str) : ChatOut :=
  match handle_language_command (pyStrip q) with
  | some (msg, forced) => .langAck msg forced
  | none =>
    if env.client.isNone then .keyWarning
    else
      let dl := detect_and_translate_to_english env.client jparse (pyStrip q)
      let out_lang := preferred.getD dl.1
      let rd := route_department simR dl.2
      let gr := generate_reply env dl.2 rd.1 out_lang
      .answered gr.1 rd.1 rd.2.1 rd.2.2 gr.2.1 gr.2.2

/-!  ## Correctness of the argmax model -/

theorem argmaxGo_spec (l : List ℚ) :
    ∀ xs i bi bv, i + xs.length = l.length → bi < i →
      l.getD bi 0 = bv →
      (∀ k, i ≤ k → k < l.length → l.getD k 0 = xs.getD (k - i) 0) →
      argmaxGo xs i bi bv < l.length ∧
      l.getD (argmaxGo xs i bi bv) 0 = xs.foldl max bv := by
  intro xs
  induction xs with
  | nil =>
    intro i bi bv hlen hbi hval _
    simp only [List.length_nil, Nat.add_zero] at hlen
    exact ⟨show bi < l.length by omega, hval⟩
  | cons x xs ih =>
    intro i bi bv hlen hbi hval hk
    have hil : i < l.length := by
      simp only [List.length_cons] at hlen
      omega
    have hx : l.getD i 0 = x := by
      have := hk i le_rfl hil
      simpa using this
    have hshift : ∀ k, i + 1 ≤ k → k < l.length →
        l.getD k 0 = xs.getD (k - (i + 1)) 0 := by
      intro k h1 h2
      have h3 := hk k (by omega) h2
      have h4 : k - i = (k - (i + 1)) + 1 := by omega
      rw [h3, h4]
      rfl
    show argmaxGo (x :: xs) i bi bv < l.length ∧
      l.getD (argmaxGo (x :: xs) i bi bv) 0 = (x :: xs).foldl max bv
    unfold argmaxGo
    by_cases hc : bv < x
    · rw [if_pos hc]
      have hres := ih (i + 1) i x (by simp at hlen ⊢; omega) (by omega) hx hshift
      refine ⟨hres.1, ?_⟩
      rw [hres.2]
      show xs.foldl max x = xs.foldl max (max bv x)
      rw [max_eq_right (le_of_lt hc)]
    · rw [if_neg hc]
      have hres := ih (i + 1) bi bv (by simp at hlen ⊢; omega) (by omega) hval hshift
      refine ⟨hres.1, ?_⟩
      rw [hres.2]
      show xs.foldl max bv = xs.foldl max (max bv x)
      rw [max_eq_left (le_of_not_lt hc)]

theorem argmaxIdx_spec {l : List ℚ} (h : l ≠ []) :
    argmaxIdx l < l.length ∧ l.getD (argmaxIdx l) 0 = listMax l := by
  match l, h with
  | x :: xs, _ =>
    have := argmaxGo_spec (x :: xs) xs 1 0 x (by simp; omega) (by omega) (by rfl)
      (fun k h1 h2 => by
        obtain ⟨k', rfl⟩ : ∃ k', k = k' + 1 := ⟨k - 1, by omega⟩
        rfl)
    exact this

/-- `argmaxIdx` is one valid realisation of the retrieval pick. -/
theorem argmaxIdx_pickValid : PickValid argmaxIdx := fun _ h => argmaxIdx_spec h

/-!  ## Rule-stage lemmas -/

theorem findRuleIn_eq_none {t : Str} :
    ∀ l : List (Str × List Str),
      (∀ p ∈ l, ∀ kw ∈ p.2, ¬ pyIn kw t) → findRuleIn l t = none := by
  intro l
  induction l with
  | nil => intro _; rfl
  | cons p rest ih =>
    intro h
    obtain ⟨d, kws⟩ := p
    unfold findRuleIn
    rw [if_neg, ih fun p hp => h p (List.mem_cons_of_mem _ hp)]
    intro hany
    obtain ⟨kw, hkw, hin⟩ := List.any_eq_true.mp hany
    exact h (d, kws) (List.mem_cons_self _ _) kw hkw (of_decide_eq_true hin)

theorem findRuleIn_some_of {t : Str} :
    ∀ l : List (Str × List Str),
      (∃ p ∈ l, ∃ kw ∈ p.2, pyIn kw t) →
      ∃ d, findRuleIn l t = some d ∧
        ∃ p ∈ l, p.1 = d ∧ ∃ kw ∈ p.2, pyIn kw t := by
  intro l
  induction l with
  | nil => rintro ⟨p, hp, -⟩; exact absurd hp (List.not_mem_nil p)
  | cons hd rest ih =>
    rintro ⟨p, hp, kw, hkw, hin⟩
    obtain ⟨d, kws⟩ := hd
    unfold findRuleIn
    by_cases hany : kws.any (fun kw => decide (pyIn kw t)) = true
    · rw [if_pos hany]
      obtain ⟨kw', hkw', hin'⟩ := List.any_eq_true.mp hany
      exact ⟨d, rfl, (d, kws), List.mem_cons_self _ _, rfl, kw', hkw',
        of_decide_eq_true hin'⟩
    · rw [if_neg hany]
      have hpr : p ∈ rest := by
        rcases List.mem_cons.mp hp with rfl | hm
        · exact absurd (List.any_eq_true.mpr ⟨kw, hkw, decide_eq_true hin⟩) hany
        · exact hm
      obtain ⟨d', h1, p', h2, h3, h4⟩ := ih ⟨p, hpr, kw, hkw, hin⟩
      exact ⟨d', h1, p', List.mem_cons_of_mem _ h2, h3, h4⟩

theorem findRuleIn_cons (d : Str) (kws : List Str)
    (rest : List (Str × List Str)) (t : Str) :
    findRuleIn ((d, kws) :: rest) t =
      if (kws.any fun kw => decide (pyIn kw t)) = true then some d
      else findRuleIn rest t := rfl

theorem findRuleIn_append_skip {t : Str} :
    ∀ pre l, (∀ p ∈ pre, ∀ kw ∈ p.2, ¬ pyIn kw t) →
      findRuleIn (pre ++ l) t = findRuleIn l t := by
  intro pre
  induction pre with
  | nil => intro l _; rfl
  | cons p rest ih =>
    intro l h
    obtain ⟨d, kws⟩ := p
    show findRuleIn ((d, kws) :: (rest ++ l)) t = _
    rw [findRuleIn_cons, if_neg, ih l fun p hp => h p (List.mem_cons_of_mem _ hp)]
    intro hany
    obtain ⟨kw, hkw, hin⟩ := List.any_eq_true.mp hany
    exact h (d, kws) (List.mem_cons_self _ _) kw hkw (of_decide_eq_true hin)

/-- C3 counterexample: for the query "atm card", the department CARD has the
matching keyword "card", yet `route_department` does not return CARD (it
returns the earlier-listed ATM), for any vector stage.  So the claim's "for
each such department" fails as soon as two departments match. -/
theorem claim_C3_counterexample :
    (∃ p ∈ DEPT_KEYWORDS, p.1 = str "CARD" ∧
      ∃ kw ∈ p.2, pyIn kw (normalize (str "atm card"))) ∧
    route_department (fun _ => []) (str "atm card")
      ≠ (str "CARD", 1, str "rule") := by
  constructor
  · refine ⟨(str "CARD", [str "card", str "visa", str "mastercard",
      str "debit card", str "credit card"]), by decide, rfl,
      str "card", by decide, by decide⟩
  · decide

/-- C3 (amended): if the normalized query contains some keyword of some
department's keyword list, `route_department` returns score 1.0 and method
"rule", and the returned department is one whose keyword list matches —
regardless of vector-stage behaviour.  (When several departments match, the
one returned is the first in `DEPT_KEYWORDS` iteration order, so the claim's
"for each such department" does not hold; see the counterexample.) -/
theorem claim_C3 (q : Str)
    (h : ∃ p ∈ DEPT_KEYWORDS, ∃ kw ∈ p.2, pyIn kw (normalize q)) :
    ∃ p ∈ DEPT_KEYWORDS, (∃ kw ∈ p.2, pyIn kw (normalize q)) ∧
      ∀ simR, route_department simR q = (p.1, 1, str "rule") := by
  obtain ⟨d, h1, p, h2, h3, h4⟩ := findRuleIn_some_of DEPT_KEYWORDS h
  refine ⟨p, h2, h4, ?_⟩
  intro simR
  simp only [route_department]
  rw [h1, h3]

/-- Witness for C3: the spec scenario "atm swallowed my card". -/
theorem claim_C3_witness :
    (∃ p ∈ DEPT_KEYWORDS, ∃ kw ∈ p.2,
      pyIn kw (normalize (str "atm swallowed my card"))) ∧
    (∃ p ∈ DEPT_KEYWORDS,
      (∃ kw ∈ p.2, pyIn kw (normalize (str "atm swallowed my card"))) ∧
      ∀ simR, route_department simR (str "atm swallowed my card")
        = (p.1, 1, str "rule")) :=
  ⟨⟨(str "ATM", [str "atm", str "cash withdrawal", str "swallowed",
      str "debit but no cash"]), by decide, str "atm", by decide, by decide⟩,
   claim_C3 _ ⟨(str "ATM", [str "atm", str "cash withdrawal", str "swallowed",
      str "debit but no cash"]), by decide, str "atm", by decide, by decide⟩⟩

/-- C4: `route_department` first normalizes the text (lowercase, strip,
collapse whitespace), then scans the per-department keyword lists in the
fixed `DEPT_KEYWORDS` iteration order; the first department in that order
with any keyword occurring as a literal substring of the normalized text
wins outright with score exactly 1.0 and method "rule", and the vector stage
is not consulted (the result is identical for every vector-stage
collaborator). -/
theorem claim_C4 (q : Str) (pre post : List (Str × List Str)) (d : Str)
    (kws : List Str) (hsplit : DEPT_KEYWORDS = pre ++ (d, kws) :: post)
    (hpre : ∀ p ∈ pre, ∀ kw ∈ p.2, ¬ pyIn kw (normalize q))
    (hkw : ∃ kw ∈ kws, pyIn kw (normalize q)) :
    ∀ simR simR', route_department simR q = (d, 1, str "rule") ∧
      route_department simR q = route_department simR' q := by
  have hfind : findRuleIn DEPT_KEYWORDS (normalize q) = some d := by
    rw [hsplit, findRuleIn_append_skip pre _ hpre]
    obtain ⟨kw, h1, h2⟩ := hkw
    unfold findRuleIn
    rw [if_pos (List.any_eq_true.mpr ⟨kw, h1, decide_eq_true h2⟩)]
  intro simR simR'
  constructor
  · simp only [route_department]
    rw [hfind]
  · simp only [route_department]
    rw [hfind]

/-- Witness for C4 at "atm swallowed my card" (ATM is the first entry of the
keyword table). -/
theorem claim_C4_witness :
    DEPT_KEYWORDS = [] ++ (str "ATM", [str "atm", str "cash withdrawal",
        str "swallowed", str "debit but no cash"]) :: DEPT_KEYWORDS.drop 1 ∧
    (∀ p ∈ ([] : List (Str × List Str)), ∀ kw ∈ p.2,
      ¬ pyIn kw (normalize (str "atm swallowed my card"))) ∧
    (∃ kw ∈ [str "atm", str "cash withdrawal", str "swallowed",
        str "debit but no cash"],
      pyIn kw (normalize (str "atm swallowed my card"))) ∧
    (route_department (fun _ => []) (str "atm swallowed my card")
        = (str "ATM", 1, str "rule") ∧
      route_department (fun _ => []) (str "atm swallowed my card")
        = route_department (fun _ => [1]) (str "atm swallowed my card")) :=
  ⟨by decide, by simp, ⟨str "atm", by decide, by decide⟩,
   claim_C4 (str "atm swallowed my card") [] (DEPT_KEYWORDS.drop 1) (str "ATM")
     [str "atm", str "cash withdrawal", str "swallowed", str "debit but no cash"]
     (by decide) (by simp) ⟨str "atm", by decide, by decide⟩
     (fun _ => []) (fun _ => [1])⟩

/-- C5: for every query with no keyword match, if the maximum cosine
similarity over the department exemplar space is strictly below 0.25 the
router returns CONTACT with method "tfidf_lowconf" and the best similarity
as score; otherwise it returns the department owning the
highest-similarity exemplar (first such exemplar on ties, as numpy argmax)
with method "tfidf". -/
theorem claim_C5 (simR : Str → List ℚ) (q : Str)
    (hnokw : ∀ p ∈ DEPT_KEYWORDS, ∀ kw ∈ p.2, ¬ pyIn kw (normalize q))
    (hlen : (simR (normalize q)).length = dept_labels.length) :
    (listMax (simR (normalize q)) < SIM_THRESHOLD_ROUTE →
      route_department simR q
        = (str "CONTACT", listMax (simR (normalize q)), str "tfidf_lowconf")) ∧
    (SIM_THRESHOLD_ROUTE ≤ listMax (simR (normalize q)) →
      route_department simR q
        = (dept_labels.getD (argmaxIdx (simR (normalize q))) (str ""),
           listMax (simR (normalize q)), str "tfidf") ∧
      (simR (normalize q)).getD (argmaxIdx (simR (normalize q))) 0
        = listMax (simR (normalize q))) := by
  have hfind : findRuleIn DEPT_KEYWORDS (normalize q) = none :=
    findRuleIn_eq_none DEPT_KEYWORDS hnokw
  have hne : simR (normalize q) ≠ [] := by
    intro hnil
    rw [hnil] at hlen
    exact absurd hlen.symm (by decide)
  obtain ⟨hlt, hval⟩ := argmaxIdx_spec hne
  constructor
  · intro hbelow
    simp only [route_department]
    rw [hfind]
    simp only [hval]
    rw [if_pos hbelow]
  · intro habove
    refine ⟨?_, hval⟩
    simp only [route_department]
    rw [hfind]
    simp only [hval]
    rw [if_neg (not_lt.mpr habove)]

/-- Witness for C5: an unrouteable query with all-zero similarities lands in
CONTACT via the low-confidence branch. -/
theorem claim_C5_witness :
    (∀ p ∈ DEPT_KEYWORDS, ∀ kw ∈ p.2,
      ¬ pyIn kw (normalize (str "good morning dear sir"))) ∧
    ((fun _ => List.replicate 52 (0 : ℚ)) (normalize (str "good morning dear sir"))).length
      = dept_labels.length ∧
    (listMax ((fun _ => List.replicate 52 (0 : ℚ)) (normalize (str "good morning dear sir")))
        < SIM_THRESHOLD_ROUTE →
      route_department (fun _ => List.replicate 52 (0 : ℚ))
          (str "good morning dear sir")
        = (str "CONTACT",
           listMax ((fun _ => List.replicate 52 (0 : ℚ))
             (normalize (str "good morning dear sir"))),
           str "tfidf_lowconf")) :=
  ⟨by decide, by decide,
   (claim_C5 (fun _ => List.replicate 52 (0 : ℚ)) (str "good morning dear sir")
     (by decide) (by decide)).1⟩

/-!  ## Blankness -/

theorem pyStrip_eq_nil_iff (v : Str) :
    pyStrip v = [] ↔ ∀ c ∈ v, isPySpace c = true := by
  constructor
  · intro h c hc
    unfold pyStrip at h
    have h1 : (v.dropWhile isPySpace).reverse.dropWhile isPySpace = [] := by
      rwa [List.reverse_eq_nil_iff] at h
    have h2 := List.dropWhile_eq_nil_iff.mp h1
    by_cases hd : v.dropWhile isPySpace = []
    · exact List.dropWhile_eq_nil_iff.mp hd c hc
    · exfalso
      match he : v.dropWhile isPySpace, hd with
      | c0 :: w, _ =>
        have hns : isPySpace c0 = false := by
          have := List.head?_dropWhile_not isPySpace v
          rw [he] at this
          simpa using this
        have : isPySpace c0 = true := by
          refine h2 c0 ?_
          rw [he]
          simp
        rw [this] at hns
        simp at hns
  · intro h
    unfold pyStrip
    have h1 : v.dropWhile isPySpace = [] := List.dropWhile_eq_nil_iff.mpr h
    rw [h1]
    rfl

theorem pyStrip_ne_nil_iff (v : Str) :
    pyStrip v ≠ [] ↔ ∃ c ∈ v, isPySpace c = false := by
  rw [Ne, pyStrip_eq_nil_iff]
  push_neg
  constructor
  · rintro ⟨c, hc, hns⟩
    exact ⟨c, hc, by simpa using hns⟩
  · rintro ⟨c, hc, hns⟩
    exact ⟨c, hc, by simp [hns]⟩

/-- C9: `build_vector_index` first filters out blank (empty or
whitespace-only) and non-string entries; if fewer than 3 texts remain it
fits a unigram+bigram vectorizer with `min_df` 1 and no stop-word removal,
otherwise it requires each term to appear in at least 2 documents and
removes English stop words.  The final conjunct characterizes blankness:
a string survives `t.strip()` iff it has a non-whitespace character. -/
theorem claim_C9 (texts : List PyVal) :
    (build_vector_index texts).2
      = (texts.filterMap fun t =>
          match t with
          | .s v => if pyStrip v ≠ [] then some v else none
          | .other => none) ∧
    ((build_vector_index texts).2.length < 3 →
      (build_vector_index texts).1 = ⟨1, 2, 1, none⟩) ∧
    (3 ≤ (build_vector_index texts).2.length →
      (build_vector_index texts).1 = ⟨1, 2, 2, some (str "english")⟩) ∧
    (∀ v : Str, pyStrip v ≠ [] ↔ ∃ c ∈ v, isPySpace c = false) := by
  have he : build_vector_index texts
      = (if (texts.filterMap fun t =>
            match t with
            | PyVal.s v => if pyStrip v ≠ [] then some v else none
            | PyVal.other => none).length < 3
         then (⟨1, 2, 1, none⟩,
           texts.filterMap fun t =>
            match t with
            | PyVal.s v => if pyStrip v ≠ [] then some v else none
            | PyVal.other => none)
         else (⟨1, 2, 2, some (str "english")⟩,
           texts.filterMap fun t =>
            match t with
            | PyVal.s v => if pyStrip v ≠ [] then some v else none
            | PyVal.other => none)) := rfl
  by_cases hc : (texts.filterMap fun t =>
      match t with
      | PyVal.s v => if pyStrip v ≠ [] then some v else none
      | PyVal.other => none).length < 3
  · rw [he, if_pos hc]
    refine ⟨rfl, fun _ => rfl, fun hge => ?_, pyStrip_ne_nil_iff⟩
    simp only at hge
    omega
  · rw [he, if_neg hc]
    refine ⟨rfl, fun hlt => ?_, fun _ => rfl, pyStrip_ne_nil_iff⟩
    simp only at hlt
    omega

/-- Witness for C9 at a concrete mixed list (one keeper, one non-string, one
whitespace-only string). -/
theorem claim_C9_witness :
    (build_vector_index [.s (str "loan status"), .other, .s (str "  ")]).2
      = ([.s (str "loan status"), PyVal.other,
          .s (str "  ")].filterMap fun t =>
          match t with
          | PyVal.s v => if pyStrip v ≠ [] then some v else none
          | PyVal.other => none) ∧
    ((build_vector_index [.s (str "loan status"), .other, .s (str "  ")]).2.length < 3 ∧
      (build_vector_index [.s (str "loan status"), .other, .s (str "  ")]).1
        = ⟨1, 2, 1, none⟩) :=
  ⟨(claim_C9 _).1,
   ⟨by decide, (claim_C9 [.s (str "loan status"), .other, .s (str "  ")]).2.1
     (by decide)⟩⟩

/-- C6: `detect_and_translate_to_english` never raises (it is a total
function of its collaborators), and on any collaborator failure — absent
credential (`client = none`), an exception raised during the call, or a
response that fails JSON parsing — it returns exactly `("en", originalText)`
with the input unchanged. -/
theorem claim_C6 (client : Option Client) (jparse : Str → Option JDetect)
    (text : Str) :
    (client = none →
      detect_and_translate_to_english client jparse text = (str "en", text)) ∧
    (∀ c, client = some c →
      c.respond detect_sys (str "INPUT:\n" ++ (protect_placeholders text).1)
        = .exn →
      detect_and_translate_to_english client jparse text = (str "en", text)) ∧
    (∀ c out, client = some c →
      c.respond detect_sys (str "INPUT:\n" ++ (protect_placeholders text).1)
        = .ok out →
      jparse (pyStrip out) = none →
      detect_and_translate_to_english client jparse text = (str "en", text)) := by
  refine ⟨?_, ?_, ?_⟩
  · rintro rfl
    rfl
  · rintro c rfl hexn
    simp only [detect_and_translate_to_english]
    rw [hexn]
  · rintro c out rfl hok hparse
    simp only [detect_and_translate_to_english]
    rw [hok]
    simp only
    rw [hparse]

/-- Witness for C6: no credential configured, a text with a placeholder. -/
theorem claim_C6_witness :
    (none : Option Client) = none ∧
    detect_and_translate_to_english none (fun _ => none)
        (str "nataka kukopa {amount}")
      = (str "en", str "nataka kukopa {amount}") :=
  ⟨rfl, (claim_C6 none (fun _ => none) (str "nataka kukopa {amount}")).1 rfl⟩

/-!  ## The language-command table (C8) -/

def trigSw (u : Str) : Prop :=
  pyIn (str "kiswahili") (pyLower (pyStrip u)) ∨
    pyIn (str "swahili") (pyLower (pyStrip u))

def trigAm (u : Str) : Prop :=
  pyIn (str "amharic") (pyLower (pyStrip u)) ∨ pyIn (str "አማርኛ") u

def trigSo (u : Str) : Prop :=
  pyIn (str "somali") (pyLower (pyStrip u)) ∨
    pyIn (str "soomaali") (pyLower (pyStrip u))

def trigAr (u : Str) : Prop :=
  pyIn (str "arabic") (pyLower (pyStrip u)) ∨ pyIn (str "العربية") u ∨
    pyIn (str "عربي") u

def trigEn (u : Str) : Prop := pyIn (str "english") (pyLower (pyStrip u))

instance (u : Str) : Decidable (trigSw u) := by unfold trigSw; infer_instance
instance (u : Str) : Decidable (trigAm u) := by unfold trigAm; infer_instance
instance (u : Str) : Decidable (trigSo u) := by unfold trigSo; infer_instance
instance (u : Str) : Decidable (trigAr u) := by unfold trigAr; infer_instance
instance (u : Str) : Decidable (trigEn u) := by unfold trigEn; infer_instance

theorem pyIn_ne_nil {n t : Str} (h : pyIn n t) (hn : n ≠ []) : t ≠ [] := by
  rintro rfl
  have hlen := h.length_le
  simp only [List.length_nil, Nat.le_zero] at hlen
  exact hn (List.eq_nil_of_length_eq_zero hlen)

theorem mem_not_space_ne_nil {c : Char} {u : Str} (hc : c ∈ u)
    (hs : isPySpace c = false) : pyLower (pyStrip u) ≠ [] := by
  intro h
  have h1 : pyStrip u = [] := by
    unfold pyLower at h
    exact List.map_eq_nil_iff.mp h
  have h2 := (pyStrip_eq_nil_iff u).mp h1 c hc
  rw [hs] at h2
  simp at h2

theorem trigSw_ne_nil {u : Str} (h : trigSw u) : pyLower (pyStrip u) ≠ [] := by
  rcases h with h | h
  · exact pyIn_ne_nil h (by decide)
  · exact pyIn_ne_nil h (by decide)

theorem trigAm_ne_nil {u : Str} (h : trigAm u) : pyLower (pyStrip u) ≠ [] := by
  rcases h with h | h
  · exact pyIn_ne_nil h (by decide)
  · exact mem_not_space_ne_nil
      (show 'አ' ∈ u from h.subset (by decide)) (by decide)

theorem trigSo_ne_nil {u : Str} (h : trigSo u) : pyLower (pyStrip u) ≠ [] := by
  rcases h with h | h
  · exact pyIn_ne_nil h (by decide)
  · exact pyIn_ne_nil h (by decide)

theorem trigAr_ne_nil {u : Str} (h : trigAr u) : pyLower (pyStrip u) ≠ [] := by
  rcases h with h | h | h
  · exact pyIn_ne_nil h (by decide)
  · exact mem_not_space_ne_nil
      (show 'ا' ∈ u from h.subset (by decide)) (by decide)
  · exact mem_not_space_ne_nil
      (show 'ع' ∈ u from h.subset (by decide)) (by decide)

theorem trigEn_ne_nil {u : Str} (h : trigEn u) : pyLower (pyStrip u) ≠ [] :=
  pyIn_ne_nil h (by decide)

/-- C8: `handle_language_command` checks its trigger rules in the fixed
source order sw, am, so, ar, en, and the first matching rule wins; a message
containing both "english" and "somali" (and no earlier trigger) resolves to
"so" with the fixed Somali acknowledgement; every text containing "arabic"
(and no earlier trigger) returns the fixed Arabic acknowledgement and
language code "ar"; and on a handled command the chat turn returns the
acknowledgement and bypasses the router and cascade entirely (the outcome is
independent of every router/cascade collaborator). -/
theorem claim_C8 (u : Str) :
    (trigSw u → handle_language_command u = some (ack_sw, str "sw")) ∧
    (¬ trigSw u → trigAm u →
      handle_language_command u = some (ack_am, str "am")) ∧
    (¬ trigSw u → ¬ trigAm u → trigSo u →
      handle_language_command u = some (ack_so, str "so")) ∧
    (¬ trigSw u → ¬ trigAm u → ¬ trigSo u → trigAr u →
      handle_language_command u = some (ack_ar, str "ar")) ∧
    (¬ trigSw u → ¬ trigAm u → ¬ trigSo u → ¬ trigAr u → trigEn u →
      handle_language_command u = some (ack_en, str "en")) ∧
    (pyIn (str "somali") (pyLower (pyStrip u)) →
      pyIn (str "english") (pyLower (pyStrip u)) →
      ¬ trigSw u → ¬ trigAm u →
      handle_language_command u = some (ack_so, str "so")) ∧
    (pyIn (str "arabic") (pyLower (pyStrip u)) →
      ¬ trigSw u → ¬ trigAm u → ¬ trigSo u →
      handle_language_command u = some (ack_ar, str "ar")) ∧
    (∀ msg code, handle_language_command (pyStrip u) = some (msg, code) →
      ∀ env env' jparse jparse' simR simR' pref pref',
        chat_turn env jparse simR pref u = .langAck msg code ∧
        chat_turn env jparse simR pref u
          = chat_turn env' jparse' simR' pref' u) := by
  refine ⟨?_, ?_, ?_, ?_, ?_, ?_, ?_, ?_⟩
  · intro h
    have hne := trigSw_ne_nil h
    unfold trigSw at h
    simp only [handle_language_command]
    rw [if_neg hne, if_pos h]
  · intro h1 h2
    have hne := trigAm_ne_nil h2
    unfold trigSw at h1
    unfold trigAm at h2
    simp only [handle_language_command]
    rw [if_neg hne, if_neg h1, if_pos h2]
  · intro h1 h2 h3
    have hne := trigSo_ne_nil h3
    unfold trigSw at h1
    unfold trigAm at h2
    unfold trigSo at h3
    simp only [handle_language_command]
    rw [if_neg hne, if_neg h1, if_neg h2, if_pos h3]
  · intro h1 h2 h3 h4
    have hne := trigAr_ne_nil h4
    unfold trigSw at h1
    unfold trigAm at h2
    unfold trigSo at h3
    unfold trigAr at h4
    simp only [handle_language_command]
    rw [if_neg hne, if_neg h1, if_neg h2, if_neg h3, if_pos h4]
  · intro h1 h2 h3 h4 h5
    have hne := trigEn_ne_nil h5
    unfold trigSw at h1
    unfold trigAm at h2
    unfold trigSo at h3
    unfold trigAr at h4
    unfold trigEn at h5
    simp only [handle_language_command]
    rw [if_neg hne, if_neg h1, if_neg h2, if_neg h3, if_neg h4, if_pos h5]
  · intro hso hen h1 h2
    have hne := trigSo_ne_nil (Or.inl hso)
    unfold trigSw at h1
    unfold trigAm at h2
    simp only [handle_language_command]
    rw [if_neg hne, if_neg h1, if_neg h2, if_pos (Or.inl hso)]
  · intro har h1 h2 h3
    have hne := trigAr_ne_nil (Or.inl har)
    unfold trigSw at h1
    unfold trigAm at h2
    unfold trigSo at h3
    simp only [handle_language_command]
    rw [if_neg hne, if_neg h1, if_neg h2, if_neg h3, if_pos (Or.inl har)]
  · intro msg code h env env' jparse jparse' simR simR' pref pref'
    constructor
    · simp only [chat_turn]
      rw [h]
    · simp only [chat_turn]
      rw [h]

/-- Witness for C8: the spec scenario "reply in arabic". -/
theorem claim_C8_witness :
    (pyIn (str "arabic") (pyLower (pyStrip (str "reply in arabic"))) ∧
      ¬ trigSw (str "reply in arabic") ∧ ¬ trigAm (str "reply in arabic") ∧
      ¬ trigSo (str "reply in arabic")) ∧
    handle_language_command (str "reply in arabic") = some (ack_ar, str "ar") :=
  ⟨⟨by decide, by decide, by decide, by decide⟩,
   (claim_C8 (str "reply in arabic")).2.2.2.2.2.2.1
     (by decide) (by decide) (by decide) (by decide)⟩

/-!  ## Cascade helper lemmas -/

/-- The non-blank question corpus of the custom tier (the `questions` list of
`answer_from_custom_first`). -/
def customQuestions (env : Env) (dept : Str) : List Str :=
  ((env.fetch_custom dept).map Faq.question).filter fun q => !(pyStrip q).isEmpty

/-- The cosine similarities the custom tier computes for a query. -/
def customSims (env : Env) (dept q : Str) : List ℚ :=
  env.sim (fitCorpus (customQuestions env dept)) (normalize q)

theorem bvi_snd (texts : List PyVal) :
    (build_vector_index texts).2
      = texts.filterMap fun t =>
          match t with
          | PyVal.s v => if pyStrip v ≠ [] then some v else none
          | PyVal.other => none := by
  have he : build_vector_index texts
      = (if (texts.filterMap fun t =>
            match t with
            | PyVal.s v => if pyStrip v ≠ [] then some v else none
            | PyVal.other => none).length < 3
         then (⟨1, 2, 1, none⟩,
           texts.filterMap fun t =>
            match t with
            | PyVal.s v => if pyStrip v ≠ [] then some v else none
            | PyVal.other => none)
         else (⟨1, 2, 2, some (str "english")⟩,
           texts.filterMap fun t =>
            match t with
            | PyVal.s v => if pyStrip v ≠ [] then some v else none
            | PyVal.other => none)) := rfl
  rw [he]
  split <;> rfl

theorem filterMap_if_eq_filter (ts : List Str) :
    (ts.filterMap fun v => if pyStrip v ≠ [] then some v else none)
      = ts.filter fun v => !(pyStrip v).isEmpty := by
  induction ts with
  | nil => rfl
  | cons v ts ih =>
    rw [List.filterMap_cons, List.filter_cons]
    by_cases hv : pyStrip v = []
    · rw [if_neg (by simp [hv]), if_neg (by simp [hv])]
      exact ih
    · rw [if_pos hv, if_pos (by simp [List.isEmpty_iff, hv])]
      rw [ih]

theorem fitCorpus_eq_filter (ts : List Str) :
    fitCorpus ts = ts.filter fun v => !(pyStrip v).isEmpty := by
  unfold fitCorpus
  rw [bvi_snd, List.filterMap_map]
  exact filterMap_if_eq_filter ts

theorem fitCorpus_of_filtered (ts : List Str) :
    fitCorpus (ts.filter fun v => !(pyStrip v).isEmpty)
      = ts.filter fun v => !(pyStrip v).isEmpty := by
  rw [fitCorpus_eq_filter, List.filter_filter]
  exact List.filter_congr fun x _ => Bool.and_self _

theorem fitCorpus_customQuestions (env : Env) (dept : Str) :
    fitCorpus (customQuestions env dept) = customQuestions env dept :=
  fitCorpus_of_filtered _

theorem getD_question : ∀ (l : List Faq) (i : Nat),
    (l.map Faq.question).getD i [] = (l.getD i ⟨[], []⟩).question := by
  intro l
  induction l with
  | nil => intro i; cases i <;> rfl
  | cons r l ih =>
    intro i
    cases i with
    | zero => rfl
    | succ i => exact ih i

/-- C1: if at least one custom FAQ entry scoped to the department exists,
its question corpus is non-empty, and the best cosine similarity against the
query is at least 0.40, then `generate_reply` answers from the custom tier:
the returned source is "custom" (never "base" or "openai"), the score is the
best custom similarity, and the answer is the (translated) answer of the
custom row selected by the retrieval pick.  Because the theorem holds for
every environment — any base dataset and any similarity collaborator — the
custom tier is consulted strictly before the base tier and the generative
fallback even when some base entry would score higher.  The last conjunct
adds that when no custom question is blank the picked row is aligned with
the similarity vector (its question is the picked corpus entry, whose
similarity is the maximum). -/
theorem claim_C1 (env : Env) (q dept out_lang : Str)
    (hpick : PickValid env.pick)
    (hrows : env.fetch_custom dept ≠ [])
    (hq : customQuestions env dept ≠ [])
    (hsims : customSims env dept q ≠ [])
    (hscore : SIM_THRESHOLD_CUSTOM ≤ listMax (customSims env dept q)) :
    generate_reply env q dept out_lang
      = (translate_from_english env.client
          ((env.fetch_custom dept).getD (env.pick (customSims env dept q))
            ⟨[], []⟩).answer out_lang,
         str "custom", listMax (customSims env dept q)) ∧
    (generate_reply env q dept out_lang).2.1 ≠ str "base" ∧
    (generate_reply env q dept out_lang).2.1 ≠ str "openai" ∧
    ((∀ r ∈ env.fetch_custom dept, pyStrip r.question ≠ []) →
      ((env.fetch_custom dept).getD (env.pick (customSims env dept q))
          ⟨[], []⟩).question
        = (customQuestions env dept).getD (env.pick (customSims env dept q)) [] ∧
      (customSims env dept q).getD (env.pick (customSims env dept q)) 0
        = listMax (customSims env dept q)) := by
  have hbest := hpick (customSims env dept q) hsims
  have hcf : answer_from_custom_first env q dept
      = some (((env.fetch_custom dept).getD
            (env.pick (customSims env dept q)) ⟨[], []⟩).answer,
          listMax (customSims env dept q), str "custom") := by
    unfold customQuestions at hq
    simp only [answer_from_custom_first]
    rw [if_neg (by simp only [List.isEmpty_iff]; exact hrows),
      if_neg (by simp only [List.isEmpty_iff]; exact hq)]
    have hs : env.sim (fitCorpus (((env.fetch_custom dept).map Faq.question).filter
        fun q => !(pyStrip q).isEmpty)) (normalize q) = customSims env dept q := rfl
    rw [hs, hbest.2, if_pos hscore]
  have hg : generate_reply env q dept out_lang
      = (translate_from_english env.client
          ((env.fetch_custom dept).getD (env.pick (customSims env dept q))
            ⟨[], []⟩).answer out_lang,
         str "custom", listMax (customSims env dept q)) := by
    simp only [generate_reply]
    rw [hcf]
  refine ⟨hg, ?_, ?_, ?_⟩
  · rw [hg]
    show str "custom" ≠ str "base"
    decide
  · rw [hg]
    show str "custom" ≠ str "openai"
    decide
  intro hall
  have hfil : ((env.fetch_custom dept).map Faq.question).filter
      (fun q => !(pyStrip q).isEmpty) = (env.fetch_custom dept).map Faq.question := by
    apply List.filter_eq_self.mpr
    intro x hx
    obtain ⟨r, hr, rfl⟩ := List.mem_map.mp hx
    simp only [Bool.not_eq_true']
    rw [← Bool.not_eq_true]
    intro hemp
    exact hall r hr (List.isEmpty_iff.mp hemp)
  constructor
  · unfold customQuestions
    rw [hfil, getD_question]
  · exact hbest.2

/-- A concrete environment for the cascade witnesses: one LOAN FAQ, no base
data, a constant similarity collaborator and no OpenAI client. -/
def envC1 : Env where
  fetch_custom := fun _ => [⟨str "loan status", str "Your loan is pending review."⟩]
  base_df := []
  sim := fun _ _ => [mkRat 1 2]
  pick := argmaxIdx
  client := none

/-- Witness for C1: the spec scenario (custom LOAN FAQ "loan status"
retrieved with score 1/2 ≥ 0.40 and source custom). -/
theorem claim_C1_witness :
    (envC1.fetch_custom (str "LOAN") ≠ [] ∧
      customQuestions envC1 (str "LOAN") ≠ [] ∧
      customSims envC1 (str "LOAN") (str "what is my loan status") ≠ [] ∧
      SIM_THRESHOLD_CUSTOM
        ≤ listMax (customSims envC1 (str "LOAN") (str "what is my loan status"))) ∧
    generate_reply envC1 (str "what is my loan status") (str "LOAN") (str "en")
      = (translate_from_english envC1.client
          ((envC1.fetch_custom (str "LOAN")).getD
            (envC1.pick (customSims envC1 (str "LOAN")
              (str "what is my loan status"))) ⟨[], []⟩).answer (str "en"),
         str "custom",
         listMax (customSims envC1 (str "LOAN") (str "what is my loan status"))) :=
  ⟨⟨by decide, by decide, by decide, by decide⟩,
   (claim_C1 envC1 (str "what is my loan status") (str "LOAN") (str "en")
     argmaxIdx_pickValid (by decide) (by decide) (by decide) (by decide)).1⟩

/-- C7: when no custom FAQ match ≥ 0.40 and no base match ≥ 0.35 exists
(both tiers reject) and no generative-text credential is configured — or the
generative call raises — the fallback tier returns the canned
degraded-service string for that branch with source "fallback" and score
0.0, and `generate_reply` returns it: the cascade always produces an answer
(the embedding is a total function, so no exception escapes). -/
theorem claim_C7 (env : Env) (q dept out_lang : Str)
    (hc : answer_from_custom_first env q dept = none)
    (hb : answer_from_base env q dept env.base_df = none) :
    (env.client = none →
      generate_reply env q dept out_lang
        = (canned_unconfident, str "fallback", 0)) ∧
    (∀ c, env.client = some c →
      c.respond (fallback_sys out_lang)
          (fallback_user q (fallbackSnippets env q)) = .exn →
      generate_reply env q dept out_lang
        = (canned_unavailable, str "fallback", 0)) := by
  constructor
  · intro hcl
    simp only [generate_reply]
    rw [hc, hb]
    simp only [openai_fallback]
    rw [hcl]
  · intro c hcl hexn
    simp only [generate_reply]
    rw [hc, hb]
    simp only [openai_fallback]
    rw [hcl]
    simp only
    rw [hexn]

/-- Environment for the C7 witness: no custom FAQs, empty base dataset, no
client. -/
def envC7 : Env where
  fetch_custom := fun _ => []
  base_df := []
  sim := fun _ _ => []
  pick := fun _ => 0
  client := none

/-- Witness for C7: with no data and no credential the cascade degrades to
the canned string with source "fallback" and score 0. -/
theorem claim_C7_witness :
    (answer_from_custom_first envC7 (str "hello") (str "LOAN") = none ∧
      answer_from_base envC7 (str "hello") (str "LOAN") envC7.base_df = none ∧
      envC7.client = none) ∧
    generate_reply envC7 (str "hello") (str "LOAN") (str "sw")
      = (canned_unconfident, str "fallback", 0) :=
  ⟨⟨by decide, by decide, rfl⟩,
   (claim_C7 envC7 (str "hello") (str "LOAN") (str "sw")
     (by decide) (by decide)).1 rfl⟩

/-- C10: in `generate_reply`, answers accepted from the custom and base
tiers are passed through `translate_from_english` into the caller's output
language before being returned, but the result of `openai_fallback` is
returned exactly as produced: in particular, when the generative
collaborator is absent the canned English degraded-service constant reaches
the caller untranslated, for every output language. -/
theorem claim_C10 (env : Env) (q dept out_lang : Str) :
    (∀ a s src, answer_from_custom_first env q dept = some (a, s, src) →
      generate_reply env q dept out_lang
        = (translate_from_english env.client a out_lang, src, s)) ∧
    (answer_from_custom_first env q dept = none →
      ∀ a s src, answer_from_base env q dept env.base_df = some (a, s, src) →
      generate_reply env q dept out_lang
        = (translate_from_english env.client a out_lang, src, s)) ∧
    (answer_from_custom_first env q dept = none →
      answer_from_base env q dept env.base_df = none →
      generate_reply env q dept out_lang
        = ((openai_fallback env.client q (fallbackSnippets env q) out_lang).1,
           (openai_fallback env.client q (fallbackSnippets env q) out_lang).2.2,
           (openai_fallback env.client q (fallbackSnippets env q) out_lang).2.1)) ∧
    (answer_from_custom_first env q dept = none →
      answer_from_base env q dept env.base_df = none →
      env.client = none →
      generate_reply env q dept out_lang
        = (canned_unconfident, str "fallback", 0)) := by
  refine ⟨?_, ?_, ?_, ?_⟩
  · intro a s src hc
    simp only [generate_reply]
    rw [hc]
  · intro hc a s src hb
    simp only [generate_reply]
    rw [hc, hb]
  · intro hc hb
    simp only [generate_reply]
    rw [hc, hb]
  · intro hc hb hcl
    simp only [generate_reply]
    rw [hc, hb]
    simp only [openai_fallback]
    rw [hcl]

/-- Witness for C10: with output language "ar" and no client, the English
canned string is returned untranslated. -/
theorem claim_C10_witness :
    (answer_from_custom_first envC7 (str "hello") (str "CARD") = none ∧
      answer_from_base envC7 (str "hello") (str "CARD") envC7.base_df = none ∧
      envC7.client = none) ∧
    generate_reply envC7 (str "hello") (str "CARD") (str "ar")
      = (canned_unconfident, str "fallback", 0) :=
  ⟨⟨by decide, by decide, rfl⟩,
   (claim_C10 envC7 (str "hello") (str "CARD") (str "ar")).2.2.2
     (by decide) (by decide) rfl⟩

end Baraka
